import Mathlib

/-!
Verification of the fused Mixture-of-Experts (MoE) layer of this repository
(`vllm/model_executor/layers/fused_moe/fused_moe.py` and
`vllm/model_executor/layers/quantization/awq.py`).

Embedding conventions:
* All floating-point numerics are embedded over `ℚ` (exact arithmetic).
  Tensors are total functions `ℕ → ℚ` (resp. curried for 2-D/3-D) together
  with explicitly passed shape arguments; entries outside the shape are
  irrelevant junk.
* `float("-inf")` masking is embedded as `⊥` in `WithBot ℚ`.
* The transcendental `exp` used by softmax/sigmoid is replaced by `posExp`,
  a strictly positive rational surrogate; every theorem below depends only
  on positivity (and never on the concrete values), which `exp` shares.
* External collaborators that are not part of the translated source
  (`moe_align_block_size`, `ops.topk_softmax`, `ops.silu_and_mul`,
  `ops.moe_sum`, `ops.awq_gemm`, `awq_dequantize_triton`) are modelled from
  the spec's interface contracts; each such definition is marked
  `Modelled from the spec:` in its doc comment.
-/

/-- Ceiling division, as `triton.cdiv(a, b) = (a + b - 1) // b`. -/
def cdivN (a b : ℕ) : ℕ := (a + b - 1) / b

lemma le_cdivN_mul (a : ℕ) {b : ℕ} (hb : 0 < b) : a ≤ cdivN a b * b := by
  rcases Nat.eq_zero_or_pos a with ha | ha
  · simp [ha]
  · have h1 : a + b - 1 = (a - 1) + b := by omega
    have h2 : cdivN a b = (a - 1) / b + 1 := by
      unfold cdivN
      rw [h1, Nat.add_div_right _ hb]
    have h3 : a - 1 < (a - 1) / b * b + b := Nat.lt_div_mul_add hb
    have h4 : a - 1 < ((a - 1) / b + 1) * b := by
      rw [Nat.succ_mul]; exact h3
    calc a ≤ ((a - 1) / b + 1) * b := by omega
      _ = cdivN a b * b := by rw [h2]

lemma div_lt_cdivN {i m b : ℕ} (hb : 0 < b) (h : i < m) : i / b < cdivN m b := by
  rw [Nat.div_lt_iff_lt_mul hb]
  exact lt_of_lt_of_le h (le_cdivN_mul m hb)

/-- Strictly positive rational surrogate for `exp`: the theorems in this file
depend only on `exp` being everywhere positive, never on its values. -/
def posExp (x : ℚ) : ℚ := if 0 ≤ x then x + 1 else 1 / (1 - x)

lemma posExp_pos (x : ℚ) : 0 < posExp x := by
  unfold posExp
  split
  · linarith
  · rename_i h
    have : (0:ℚ) < 1 - x := by linarith [not_le.mp h]
    positivity

/-- Row-wise softmax over the first `E` entries (`torch.softmax(·, dim=-1)`),
with `exp` replaced by the positive surrogate `posExp`. -/
def softmaxQ (E : ℕ) (gate : ℕ → ℚ) : ℕ → ℚ :=
  fun e => posExp (gate e) / ∑ i ∈ Finset.range E, posExp (gate i)

lemma softmaxQ_pos {E : ℕ} (hE : 0 < E) (gate : ℕ → ℚ) (e : ℕ) :
    0 < softmaxQ E gate e := by
  unfold softmaxQ
  have hsum : 0 < ∑ i ∈ Finset.range E, posExp (gate i) :=
    Finset.sum_pos (fun i _ => posExp_pos _) (Finset.nonempty_range_iff.mpr hE.ne')
  exact div_pos (posExp_pos _) hsum

/-- `torch.sigmoid`, with `exp` replaced by `posExp`. -/
def sigmoidQ (x : ℚ) : ℚ := posExp x / (1 + posExp x)

lemma sigmoidQ_pos (x : ℚ) : 0 < sigmoidQ x := by
  unfold sigmoidQ
  have := posExp_pos x
  positivity

/-- SiLU `x * sigmoid(x)` (value only used opaquely by the theorems). -/
def siluQ (x : ℚ) : ℚ := x * sigmoidQ x

/-! ## `torch.topk`: iterated argmax selection

`torch.topk(v, k)` returns the indices of the `k` largest entries (each index
selected at most once).  We model it by iterated argmax over a list of
still-available indices; ties are broken deterministically (first maximal
index), matching the determinism requirement of the spec.  None of the
theorems depends on the tie order. -/

def topkSel (s : ℕ → WithBot ℚ) : List ℕ → ℕ → List ℕ
  | _, 0 => []
  | avail, k+1 =>
    match avail.argmax s with
    | none => []
    | some a => a :: topkSel s (avail.erase a) k

lemma topkSel_subset {s : ℕ → WithBot ℚ} :
    ∀ {k : ℕ} {avail : List ℕ} {b : ℕ}, b ∈ topkSel s avail k → b ∈ avail := by
  intro k
  induction k with
  | zero => intro avail b h; simp [topkSel] at h
  | succ n ih =>
    intro avail b h
    unfold topkSel at h
    rcases harg : avail.argmax s with _ | a
    · rw [harg] at h; simp at h
    · rw [harg] at h
      rcases List.mem_cons.mp h with rfl | hmem
      · exact List.argmax_mem harg
      · exact List.mem_of_mem_erase (ih hmem)

lemma topkSel_nodup {s : ℕ → WithBot ℚ} :
    ∀ {k : ℕ} {avail : List ℕ}, avail.Nodup → (topkSel s avail k).Nodup := by
  intro k
  induction k with
  | zero => intro avail _; simp [topkSel]
  | succ n ih =>
    intro avail hnd
    unfold topkSel
    rcases harg : avail.argmax s with _ | a
    · simp
    · refine List.nodup_cons.mpr ⟨?_, ih (hnd.erase a)⟩
      intro hmem
      exact (hnd.not_mem_erase (topkSel_subset hmem))

lemma topkSel_length {s : ℕ → WithBot ℚ} :
    ∀ {k : ℕ} {avail : List ℕ}, k ≤ avail.length →
      (topkSel s avail k).length = k := by
  intro k
  induction k with
  | zero => intro avail _; simp [topkSel]
  | succ n ih =>
    intro avail hk
    unfold topkSel
    rcases harg : avail.argmax s with _ | a
    · exfalso
      have : avail = [] := List.argmax_eq_none.mp harg
      rw [this] at hk; simp at hk
    · have ha : a ∈ avail := List.argmax_mem harg
      have hlen : (avail.erase a).length = avail.length - 1 :=
        List.length_erase_of_mem ha
      have : n ≤ (avail.erase a).length := by omega
      simp [ih this]

lemma topkSel_dominates {s : ℕ → WithBot ℚ} :
    ∀ {k : ℕ} {avail : List ℕ} {b : ℕ}, b ∈ avail →
      b ∉ topkSel s avail k →
      ∀ a ∈ topkSel s avail k, s b ≤ s a := by
  intro k
  induction k with
  | zero => intro avail b _ _ a ha; simp [topkSel] at ha
  | succ n ih =>
    intro avail b hb hnot a ha
    unfold topkSel at hnot ha
    rcases harg : avail.argmax s with _ | a0
    · rw [harg] at ha; simp at ha
    · rw [harg] at ha hnot
      rcases List.mem_cons.mp ha with rfl | hmem
      · exact List.le_of_mem_argmax hb harg
      · have hbne : b ≠ a0 := by
          rintro rfl; exact hnot (List.mem_cons_self _ _)
        have hb' : b ∈ avail.erase a0 := (List.mem_erase_of_ne hbne).mpr hb
        have hnot' : b ∉ topkSel s (avail.erase a0) n := fun hc =>
          hnot (List.mem_cons_of_mem _ hc)
        exact ih hb' hnot' a hmem

lemma countP_erase_ge {p : ℕ → Bool} :
    ∀ (l : List ℕ) (a : ℕ), l.countP p ≤ (l.erase a).countP p + 1 := by
  intro l a
  induction l with
  | nil => simp
  | cons x xs ih =>
    by_cases hx : x = a
    · subst hx
      rw [List.erase_cons_head]
      by_cases hp : p x <;> simp [List.countP_cons, hp]
    · rw [List.erase_cons_tail (by simp [hx])]
      by_cases hp : p x <;> simp [List.countP_cons, hp] <;> omega

lemma topkSel_ne_bot {s : ℕ → WithBot ℚ} :
    ∀ {k : ℕ} {avail : List ℕ},
      k ≤ avail.countP (fun a => decide (s a ≠ ⊥)) →
      ∀ a ∈ topkSel s avail k, s a ≠ ⊥ := by
  intro k
  induction k with
  | zero => intro avail _ a ha; simp [topkSel] at ha
  | succ n ih =>
    intro avail hk a ha
    unfold topkSel at ha
    rcases harg : avail.argmax s with _ | a0
    · rw [harg] at ha; simp at ha
    · rw [harg] at ha
      have hpos : 0 < avail.countP (fun a => decide (s a ≠ ⊥)) := by omega
      obtain ⟨b, hb, hbp⟩ := List.countP_pos_iff.mp hpos
      have hbne : s b ≠ ⊥ := by simpa using hbp
      have ha0 : s b ≤ s a0 := List.le_of_mem_argmax hb harg
      have ha0ne : s a0 ≠ ⊥ := by
        intro hbot
        rw [hbot, le_bot_iff] at ha0
        exact hbne ha0
      rcases List.mem_cons.mp ha with rfl | hmem
      · exact ha0ne
      · have : n ≤ (avail.erase a0).countP (fun a => decide (s a ≠ ⊥)) := by
          have h1 := countP_erase_ge avail a0 (p := fun a => decide (s a ≠ ⊥))
          omega
        exact ih this a hmem

/-! ## Renormalization (`w / w.sum(dim=-1, keepdim=True)`) -/

/-- Renormalize a row of finite weights: `topk_weights / topk_weights.sum()`. -/
def renormQ (l : List ℚ) : List ℚ := l.map (fun x => x / l.sum)

lemma sum_map_div (l : List ℚ) (s : ℚ) :
    (l.map (fun x => x / s)).sum = l.sum / s := by
  induction l with
  | nil => simp
  | cons x xs ih => simp [ih, add_div]

lemma renormQ_sum {l : List ℚ} (h : l.sum ≠ 0) : (renormQ l).sum = 1 := by
  unfold renormQ
  rw [sum_map_div, div_self h]

/-- Division on `WithBot ℚ`: any `-inf` (`⊥`) operand yields a non-finite
float result, collapsed to `⊥` here; theorems only exercise the finite case. -/
def divWB (x y : WithBot ℚ) : WithBot ℚ :=
  match x, y with
  | some a, some b => ((a / b : ℚ) : WithBot ℚ)
  | _, _ => ⊥

/-- Renormalization of a weight row that may contain `-inf` masks. -/
def renormWB (l : List (WithBot ℚ)) : List (WithBot ℚ) :=
  l.map (fun x => divWB x l.sum)

lemma sum_map_coeWB (l : List ℚ) :
    (l.map (fun q : ℚ => (q : WithBot ℚ))).sum = ((l.sum : ℚ) : WithBot ℚ) := by
  induction l with
  | nil => simp
  | cons x xs ih => simp [ih]

lemma renormWB_map_coe (l : List ℚ) :
    renormWB (l.map (fun q : ℚ => (q : WithBot ℚ)))
      = (renormQ l).map (fun q : ℚ => (q : WithBot ℚ)) := by
  unfold renormWB renormQ
  rw [sum_map_coeWB, List.map_map, List.map_map]
  rfl

/-! ## Routing: `grouped_topk` (source) and `fused_topk` (spec-modelled core)

`grouped_topk` is embedded row-wise (the source operates on the token
dimension independently per row) and lifted to the token batch with `mapM`. -/

/-- The expert indices of group `g` when the score row is viewed as
`scores.view(num_token, num_expert_group, -1)` with groups of size `gs`. -/
def groupMembers (g gs : ℕ) : List ℕ := (List.range gs).map (fun i => g * gs + i)

/-- Scoring stage of `grouped_topk`: softmax / sigmoid, or `ValueError` for
any other `scoring_func` string. -/
def scoresOf (scoring_func : String) (E : ℕ) (gate : ℕ → ℚ) :
    Except String (ℕ → ℚ) :=
  if scoring_func = "softmax" then .ok (softmaxQ E gate)
  else if scoring_func = "sigmoid" then .ok (fun e => sigmoidQ (gate e))
  else .error ("Unsupported scoring function: " ++ scoring_func)

/-- Selection scores: the raw scores, with the score-correction bias added
when present (`scores = scores + e_score_correction_bias.unsqueeze(0)`). -/
def selScores (scores0 : ℕ → ℚ) (bias : Option (ℕ → ℚ)) : ℕ → ℚ :=
  match bias with
  | none => scores0
  | some b => fun e => scores0 e + b e

/-- Per-group score: with the bias, the sum of the group's top-2 (biased)
scores; without, the group's maximum score. -/
def group_scores_of (scores0 : ℕ → ℚ) (bias : Option (ℕ → ℚ)) (gs : ℕ) :
    ℕ → WithBot ℚ :=
  let sel := selScores scores0 bias
  match bias with
  | none => fun g => ((groupMembers g gs).map sel).maximum
  | some _ => fun g =>
      ((((topkSel (fun e => ((sel e : ℚ) : WithBot ℚ))
            (groupMembers g gs) 2).map sel).sum : ℚ) : WithBot ℚ)

/-- The `topk_group` selected groups (`torch.topk(group_scores, k=topk_group)`). -/
def group_idx_of (scores0 : ℕ → ℚ) (bias : Option (ℕ → ℚ))
    (num_expert_group gs topk_group : ℕ) : List ℕ :=
  topkSel (group_scores_of scores0 bias gs) (List.range num_expert_group)
    topk_group

/-- Scores with experts outside the selected groups masked to `-inf`
(`scores.masked_fill(~score_mask.bool(), float("-inf"))`). -/
def tmp_scores_of (scores0 : ℕ → ℚ) (bias : Option (ℕ → ℚ))
    (num_expert_group gs topk_group : ℕ) : ℕ → WithBot ℚ :=
  fun e =>
    if e / gs ∈ group_idx_of scores0 bias num_expert_group gs topk_group then
      ((selScores scores0 bias e : ℚ) : WithBot ℚ)
    else ⊥

/-- The group-masked pure part of `grouped_topk`, applied to the already
computed scores of one token row. -/
def grouped_topk_core (scores0 : ℕ → ℚ) (E topk : ℕ) (renormalize : Bool)
    (num_expert_group topk_group : ℕ) (bias : Option (ℕ → ℚ)) :
    List (WithBot ℚ) × List ℕ :=
  let gs := E / num_expert_group
  let tmp := tmp_scores_of scores0 bias num_expert_group gs topk_group
  let topk_ids := topkSel tmp (List.range E) topk
  let topk_weights : List (WithBot ℚ) := match bias with
    | none => topk_ids.map tmp
    | some _ => topk_ids.map (fun e => ((scores0 e : ℚ) : WithBot ℚ))
  ((if renormalize then renormWB topk_weights else topk_weights), topk_ids)

/-- One token row of `grouped_topk` (fused_moe.py lines 892-947): score the
gate logits, optionally add the score-correction bias (selection only),
pick the `topk_group` best groups (group score = top-2 sum with bias, group
max without), mask experts outside the chosen groups with `-inf` (`⊥`),
select the global top-k among the surviving scores, gather the routing
weights (uncorrected scores in the bias case), and optionally renormalize. -/
def grouped_topk_row (E : ℕ) (gate : ℕ → ℚ) (topk : ℕ) (renormalize : Bool)
    (num_expert_group topk_group : ℕ) (scoring_func : String)
    (e_score_correction_bias : Option (ℕ → ℚ)) :
    Except String (List (WithBot ℚ) × List ℕ) := do
  let scores0 ← scoresOf scoring_func E gate
  pure (grouped_topk_core scores0 E topk renormalize num_expert_group
    topk_group e_score_correction_bias)

/-- Effectful map over a list: apply the row computation to every token row,
propagating the first raised error. -/
def mapE {α β : Type} (f : α → Except String β) : List α → Except String (List β)
  | [] => Except.ok []
  | a :: l => do
    let b ← f a
    let bs ← mapE f l
    pure (b :: bs)

/-- `grouped_topk` on the whole token batch. -/
def grouped_topk (num_token E : ℕ) (gating_output : ℕ → ℕ → ℚ) (topk : ℕ)
    (renormalize : Bool) (num_expert_group topk_group : ℕ)
    (scoring_func : String) (e_score_correction_bias : Option (ℕ → ℚ)) :
    Except String (List (List (WithBot ℚ) × List ℕ)) :=
  mapE (fun t =>
      grouped_topk_row E (gating_output t) topk renormalize num_expert_group
        topk_group scoring_func e_score_correction_bias)
    (List.range num_token)

/-- Modelled from the spec: `ops.topk_softmax`, the external fused
top-k+softmax CUDA primitive ("compute softmax-derived per-expert score via a
fused top-k+softmax primitive over raw logits") — softmax over the gate row,
then top-k selection of the softmax scores. -/
def topk_softmax_row (E topk : ℕ) (gate : ℕ → ℚ) : List ℚ × List ℕ :=
  let s := softmaxQ E gate
  let ids := topkSel (fun e => ((s e : ℚ) : WithBot ℚ)) (List.range E) topk
  (ids.map s, ids)

/-- `vllm_topk_softmax`: the primitive plus optional renormalization. -/
def vllm_topk_softmax_row (E topk : ℕ) (gate : ℕ → ℚ) (renormalize : Bool) :
    List ℚ × List ℕ :=
  let wi := topk_softmax_row E topk gate
  (if renormalize then renormQ wi.1 else wi.1, wi.2)

/-- One token row of `fused_topk` (fused_moe.py lines 856-887). -/
def fused_topk_row (E : ℕ) (gate : ℕ → ℚ) (topk : ℕ) (renormalize : Bool) :
    List ℚ × List ℕ :=
  vllm_topk_softmax_row E topk gate renormalize

/-- `fused_topk` on the whole token batch. -/
def fused_topk (M E : ℕ) (gating_output : ℕ → ℕ → ℚ) (topk : ℕ)
    (renormalize : Bool) : List (List ℚ × List ℕ) :=
  (List.range M).map (fun t => fused_topk_row E (gating_output t) topk renormalize)

lemma countP_range_mul (G gs : ℕ) (p : ℕ → Bool) :
    (List.range (G * gs)).countP p
      = ((List.range G).map (fun g => (groupMembers g gs).countP p)).sum := by
  induction G with
  | zero => simp
  | succ n ih =>
    have h1 : (n + 1) * gs = n * gs + gs := by ring
    rw [h1, List.range_add, List.countP_append, ih, List.range_succ,
      List.map_append, List.sum_append]
    simp [groupMembers]

lemma countP_groupMembers_mask (g gs : ℕ) (hgs : 0 < gs) (S : List ℕ) :
    (groupMembers g gs).countP (fun e => decide (e / gs ∈ S))
      = if g ∈ S then gs else 0 := by
  unfold groupMembers
  rw [List.countP_map]
  have hcongr : ∀ i ∈ List.range gs,
      (((fun e => decide (e / gs ∈ S)) ∘ (fun i => g * gs + i)) i = true)
        ↔ ((fun _ : ℕ => decide (g ∈ S)) i = true) := by
    intro i hi
    have hdiv : (g * gs + i) / gs = g := by
      rw [mul_comm, Nat.mul_add_div hgs,
        Nat.div_eq_of_lt (List.mem_range.mp hi), add_zero]
    simp [Function.comp, hdiv]
  rw [List.countP_congr hcongr]
  by_cases hg : g ∈ S
  · simp [hg]
  · simp [hg]

lemma countP_range_mask (G gs : ℕ) (hgs : 0 < gs) (S : List ℕ)
    (hnd : S.Nodup) (hsub : ∀ g ∈ S, g < G) :
    (List.range (G * gs)).countP (fun e => decide (e / gs ∈ S))
      = S.length * gs := by
  rw [countP_range_mul]
  have hmap : ∀ g ∈ List.range G,
      (groupMembers g gs).countP (fun e => decide (e / gs ∈ S))
        = if g ∈ S then gs else 0 :=
    fun g _ => countP_groupMembers_mask g gs hgs S
  rw [List.map_congr_left hmap]
  have hfin : ((List.range G).map (fun g => if g ∈ S then gs else 0)).sum
      = ∑ g ∈ Finset.range G, (if g ∈ S.toFinset then gs else 0) := by
    have h0 : ((List.range G).map (fun g => if g ∈ S then gs else 0)).sum
        = ∑ g ∈ Finset.range G, (if g ∈ S then gs else 0) := rfl
    rw [h0]
    exact Finset.sum_congr rfl
      (fun g _ => by by_cases hg : g ∈ S <;> simp [hg, List.mem_toFinset])
  rw [hfin, Finset.sum_ite_mem]
  have hinter : Finset.range G ∩ S.toFinset = S.toFinset := by
    apply Finset.inter_eq_right.mpr
    intro g hg
    simp only [List.mem_toFinset] at hg
    exact Finset.mem_range.mpr (hsub g hg)
  rw [hinter, Finset.sum_const, List.toFinset_card_of_nodup hnd, smul_eq_mul]

lemma tmp_scores_ne_bot_count (scores0 : ℕ → ℚ) (bias : Option (ℕ → ℚ))
    (G gs tkg : ℕ) (hgs : 0 < gs) (hGt : tkg ≤ G) :
    (List.range (G * gs)).countP
      (fun e => decide (tmp_scores_of scores0 bias G gs tkg e ≠ ⊥))
      = tkg * gs := by
  have hnd : (group_idx_of scores0 bias G gs tkg).Nodup :=
    topkSel_nodup (List.nodup_range _)
  have hsub : ∀ g ∈ group_idx_of scores0 bias G gs tkg, g < G := by
    intro g hg
    exact List.mem_range.mp (topkSel_subset hg)
  have hlen : (group_idx_of scores0 bias G gs tkg).length = tkg := by
    unfold group_idx_of
    exact topkSel_length (by simpa using hGt)
  have hcongr : ∀ e ∈ List.range (G * gs),
      ((fun e => decide (tmp_scores_of scores0 bias G gs tkg e ≠ ⊥)) e = true)
        ↔ ((fun e => decide (e / gs ∈ group_idx_of scores0 bias G gs tkg)) e
            = true) := by
    intro e _
    unfold tmp_scores_of
    by_cases h : e / gs ∈ group_idx_of scores0 bias G gs tkg <;> simp [h]
  rw [List.countP_congr hcongr,
    countP_range_mask G gs hgs _ hnd hsub, hlen]
lemma mapE_ok_length {α β : Type} (f : α → Except String β) :
    ∀ (l : List α) (ys : List β), mapE f l = Except.ok ys →
      ys.length = l.length := by
  intro l
  induction l with
  | nil => intro ys h; cases h; rfl
  | cons a l ih =>
    intro ys h
    unfold mapE at h
    cases hfa : f a with
    | error e => rw [hfa] at h; exact absurd h (by simp [Bind.bind, Except.bind])
    | ok b =>
      rw [hfa] at h
      cases hrest : mapE f l with
      | error e =>
        rw [hrest] at h
        exact absurd h (by simp [Bind.bind, Except.bind])
      | ok bs =>
        rw [hrest] at h
        simp only [Bind.bind, Except.bind, pure, Except.pure, Except.ok.injEq] at h
        subst h
        simp [ih bs hrest]

lemma mapE_ok_mem {α β : Type} (f : α → Except String β) :
    ∀ (l : List α) (ys : List β), mapE f l = Except.ok ys →
      ∀ y ∈ ys, ∃ x ∈ l, f x = Except.ok y := by
  intro l
  induction l with
  | nil => intro ys h; cases h; intro y hy; simp at hy
  | cons a l ih =>
    intro ys h
    unfold mapE at h
    cases hfa : f a with
    | error e => rw [hfa] at h; exact absurd h (by simp [Bind.bind, Except.bind])
    | ok b =>
      rw [hfa] at h
      cases hrest : mapE f l with
      | error e =>
        rw [hrest] at h
        exact absurd h (by simp [Bind.bind, Except.bind])
      | ok bs =>
        rw [hrest] at h
        simp only [Bind.bind, Except.bind, pure, Except.pure, Except.ok.injEq] at h
        subst h
        intro y hy
        rcases List.mem_cons.mp hy with rfl | hy2
        · exact ⟨a, List.mem_cons_self _ _, hfa⟩
        · obtain ⟨x, hx, hfx⟩ := ih bs hrest y hy2
          exact ⟨x, List.mem_cons_of_mem _ hx, hfx⟩

lemma grouped_topk_row_softmax (E topk : ℕ) (gate : ℕ → ℚ) (renorm : Bool)
    (G tkg : ℕ) (bias : Option (ℕ → ℚ)) :
    grouped_topk_row E gate topk renorm G tkg "softmax" bias
      = Except.ok (grouped_topk_core (softmaxQ E gate) E topk renorm G tkg bias) := by
  rfl

lemma grouped_core_gs (E G gs : ℕ) (hG : 0 < G) (hEG : E = G * gs) :
    E / G = gs := by
  subst hEG
  exact Nat.mul_div_cancel_left gs hG

lemma grouped_core_snd (scores0 : ℕ → ℚ) (E topk G tkg : ℕ)
    (bias : Option (ℕ → ℚ)) (renorm : Bool) :
    (grouped_topk_core scores0 E topk renorm G tkg bias).2
      = topkSel (tmp_scores_of scores0 bias G (E / G) tkg) (List.range E) topk := by
  rfl

lemma grouped_core_ids (scores0 : ℕ → ℚ) (E topk G tkg gs : ℕ)
    (bias : Option (ℕ → ℚ)) (renorm : Bool)
    (hG : 0 < G) (hgs : 0 < gs) (hEG : E = G * gs) (hGt : tkg ≤ G)
    (hsel : topk ≤ tkg * gs) :
    ((grouped_topk_core scores0 E topk renorm G tkg bias).2).Nodup ∧
    ((grouped_topk_core scores0 E topk renorm G tkg bias).2).length = topk ∧
    (∀ e ∈ (grouped_topk_core scores0 E topk renorm G tkg bias).2,
      tmp_scores_of scores0 bias G gs tkg e ≠ ⊥) := by
  have hgsq := grouped_core_gs E G gs hG hEG
  rw [grouped_core_snd, hgsq]
  refine ⟨topkSel_nodup (List.nodup_range _), ?_, ?_⟩
  · apply topkSel_length
    have h1 : topk ≤ G * gs := hsel.trans (Nat.mul_le_mul_right gs hGt)
    simpa using h1.trans_eq hEG.symm
  · intro e he
    refine topkSel_ne_bot ?_ e he
    rw [hEG, tmp_scores_ne_bot_count scores0 bias G gs tkg hgs hGt]
    exact hsel

lemma grouped_core_weights_sum (scores0 : ℕ → ℚ) (E topk G tkg gs : ℕ)
    (bias : Option (ℕ → ℚ))
    (hG : 0 < G) (hgs : 0 < gs) (hEG : E = G * gs) (hGt : tkg ≤ G)
    (hsel : topk ≤ tkg * gs) (htk : 0 < topk)
    (hpos : ∀ e, 0 < scores0 e) :
    ((grouped_topk_core scores0 E topk true G tkg bias).1).sum
      = ((1 : ℚ) : WithBot ℚ) := by
  obtain ⟨hnd, hlen, hne⟩ :=
    grouped_core_ids scores0 E topk G tkg gs bias true hG hgs hEG hGt hsel
  have hgsq := grouped_core_gs E G gs hG hEG
  have hw : (grouped_topk_core scores0 E topk true G tkg bias).1
      = renormWB (((grouped_topk_core scores0 E topk true G tkg bias).2).map
          scores0 |>.map (fun q : ℚ => (q : WithBot ℚ))) := by
    cases bias with
    | some b =>
      show renormWB (List.map _ _) = _
      rw [List.map_map]
      rfl
    | none =>
      show renormWB (List.map
        (tmp_scores_of scores0 none G (E / G) tkg) _) = _
      rw [List.map_map]
      apply congrArg
      apply List.map_congr_left
      intro e he
      have hne' : tmp_scores_of scores0 none G gs tkg e ≠ ⊥ := hne e he
      rw [hgsq]
      unfold tmp_scores_of at hne' ⊢
      by_cases hmask : e / gs ∈ group_idx_of scores0 none G gs tkg
      · rw [if_pos hmask]
        rfl
      · exact absurd (if_neg hmask) hne'
  rw [hw, renormWB_map_coe, sum_map_coeWB]
  have hlq : (((grouped_topk_core scores0 E topk true G tkg bias).2).map
      scores0).sum ≠ 0 := by
    have hposl : ∀ x ∈ ((grouped_topk_core scores0 E topk true G tkg
        bias).2).map scores0, 0 < x := by
      intro x hx
      obtain ⟨e, _, rfl⟩ := List.mem_map.mp hx
      exact hpos e
    have hnil : ((grouped_topk_core scores0 E topk true G tkg bias).2).map
        scores0 ≠ [] := by
      have : (((grouped_topk_core scores0 E topk true G tkg bias).2).map
          scores0).length = topk := by simp [hlen]
      intro hcon
      rw [hcon] at this
      simp at this
      omega
    exact (List.sum_pos _ hposl hnil).ne'
  rw [renormQ_sum hlq]

/-- Claim C2: for every gate logit matrix (subject to the implicit
well-formedness of the call: `topk` at most the number of experts, resp. at
most the number of experts surviving the group mask), both routing functions
return per-token expert id lists of exactly `topk` distinct entries, and with
`renormalize` the returned per-token weights sum to exactly 1 (exact rational
arithmetic; the float spec tolerance 1e-6 is subsumed). -/
theorem claim_C2_routing_correctness
    (M E topk G tkg gs : ℕ) (gating : ℕ → ℕ → ℚ) (renorm : Bool)
    (bias : Option (ℕ → ℚ))
    (hE : 0 < E) (htk : 0 < topk) (htkE : topk ≤ E)
    (hG : 0 < G) (hgs : 0 < gs) (hEG : E = G * gs) (hGt : tkg ≤ G)
    (hsel : topk ≤ tkg * gs) :
    ((fused_topk M E gating topk renorm).length = M ∧
      ∀ row ∈ fused_topk M E gating topk renorm,
        row.2.Nodup ∧ row.2.length = topk ∧
          (renorm = true → row.1.sum = 1)) ∧
    (∀ rows, grouped_topk M E gating topk renorm G tkg "softmax" bias
        = Except.ok rows →
      rows.length = M ∧
        ∀ row ∈ rows, row.2.Nodup ∧ row.2.length = topk ∧
          (renorm = true → row.1.sum = ((1 : ℚ) : WithBot ℚ))) := by
  constructor
  · constructor
    · simp [fused_topk]
    · intro row hrow
      obtain ⟨t, _, rfl⟩ := List.mem_map.mp hrow
      unfold fused_topk_row vllm_topk_softmax_row topk_softmax_row
      refine ⟨topkSel_nodup (List.nodup_range _),
        topkSel_length (by simpa using htkE), ?_⟩
      intro hr
      subst hr
      simp only [if_pos rfl]
      apply renormQ_sum
      have hposl : ∀ x ∈ (topkSel
          (fun e => ((softmaxQ E (gating t) e : ℚ) : WithBot ℚ))
          (List.range E) topk).map (softmaxQ E (gating t)), 0 < x := by
        intro x hx
        obtain ⟨e, _, rfl⟩ := List.mem_map.mp hx
        exact softmaxQ_pos hE _ e
      have hnil : (topkSel
          (fun e => ((softmaxQ E (gating t) e : ℚ) : WithBot ℚ))
          (List.range E) topk).map (softmaxQ E (gating t)) ≠ [] := by
        have hl : ((topkSel
            (fun e => ((softmaxQ E (gating t) e : ℚ) : WithBot ℚ))
            (List.range E) topk).map (softmaxQ E (gating t))).length = topk := by
          simp [topkSel_length (show topk ≤ (List.range E).length by simpa using htkE)]
        intro hcon
        rw [hcon] at hl
        simp at hl
        omega
      exact (List.sum_pos _ hposl hnil).ne'
  · intro rows hok
    constructor
    · have := mapE_ok_length _ _ _ hok
      simpa using this
    · intro row hrow
      obtain ⟨t, _, hrowok⟩ := mapE_ok_mem _ _ _ hok row hrow
      rw [grouped_topk_row_softmax] at hrowok
      have hrow' : grouped_topk_core (softmaxQ E (gating t)) E topk renorm
          G tkg bias = row := by
        exact (Except.ok.injEq _ _).mp hrowok
      obtain ⟨hnd, hlen, _⟩ := grouped_core_ids (softmaxQ E (gating t))
        E topk G tkg gs bias renorm hG hgs hEG hGt hsel
      rw [hrow'] at hnd hlen
      refine ⟨hnd, hlen, ?_⟩
      intro hr
      subst hr
      have := grouped_core_weights_sum (softmaxQ E (gating t)) E topk G tkg gs
        bias hG hgs hEG hGt hsel htk (fun e => softmaxQ_pos hE _ e)
      rw [hrow'] at this
      exact this

/-- Claim C3: every expert id selected by `grouped_topk` lies in one of the
`topk_group` selected groups; the selected groups dominate all unselected
groups in group score (top-2 sum of biased scores when the bias is present,
group max otherwise); experts outside the selected groups are masked to
`-inf` (`⊥`) before the final top-k selection.  The first conjunct ties the
returned value of `grouped_topk_row` to the analysed selection. -/
theorem claim_C3_grouped_group_restriction
    (E topk G tkg gs : ℕ) (gate : ℕ → ℚ) (renorm : Bool)
    (bias : Option (ℕ → ℚ))
    (hG : 0 < G) (hgs : 0 < gs) (hEG : E = G * gs) (hGt : tkg ≤ G)
    (hsel : topk ≤ tkg * gs) :
    grouped_topk_row E gate topk renorm G tkg "softmax" bias
      = Except.ok (grouped_topk_core (softmaxQ E gate) E topk renorm G tkg bias) ∧
    (∀ e ∈ (grouped_topk_core (softmaxQ E gate) E topk renorm G tkg bias).2,
      e / gs ∈ group_idx_of (softmaxQ E gate) bias G gs tkg) ∧
    (∀ g' ∈ group_idx_of (softmaxQ E gate) bias G gs tkg, ∀ g < G,
      g ∉ group_idx_of (softmaxQ E gate) bias G gs tkg →
        group_scores_of (softmaxQ E gate) bias gs g
          ≤ group_scores_of (softmaxQ E gate) bias gs g') ∧
    (∀ e, e / gs ∉ group_idx_of (softmaxQ E gate) bias G gs tkg →
      tmp_scores_of (softmaxQ E gate) bias G gs tkg e = ⊥) := by
  obtain ⟨_, _, hne⟩ := grouped_core_ids (softmaxQ E gate) E topk G tkg gs bias
    renorm hG hgs hEG hGt hsel
  refine ⟨grouped_topk_row_softmax _ _ _ _ _ _ _, ?_, ?_, ?_⟩
  · intro e he
    have hne' := hne e he
    unfold tmp_scores_of at hne'
    by_cases hmask : e / gs ∈ group_idx_of (softmaxQ E gate) bias G gs tkg
    · exact hmask
    · exact absurd (if_neg hmask) hne'
  · intro g' hg' g hgG hgnot
    unfold group_idx_of at hg' hgnot
    exact topkSel_dominates (List.mem_range.mpr hgG) hgnot g' hg'
  · intro e hmask
    unfold tmp_scores_of
    exact if_neg hmask

/-- Claim C4: with the score-correction bias present, `grouped_topk` selects
the expert ids from the bias-corrected, group-masked scores, but returns as
weights exactly the uncorrected softmax scores gathered at those ids
(renormalized afterwards when requested): the bias influences which experts
are selected, never the magnitude of a returned weight. -/
theorem claim_C4_bias_affects_selection_only
    (E topk G tkg : ℕ) (gate b : ℕ → ℚ) (renorm : Bool) :
    grouped_topk_row E gate topk renorm G tkg "softmax" (some b)
      = Except.ok
        ((if renorm
          then renormWB ((topkSel
              (tmp_scores_of (softmaxQ E gate) (some b) G (E / G) tkg)
              (List.range E) topk).map
            (fun e => ((softmaxQ E gate e : ℚ) : WithBot ℚ)))
          else (topkSel
              (tmp_scores_of (softmaxQ E gate) (some b) G (E / G) tkg)
              (List.range E) topk).map
            (fun e => ((softmaxQ E gate e : ℚ) : WithBot ℚ))),
         topkSel (tmp_scores_of (softmaxQ E gate) (some b) G (E / G) tkg)
           (List.range E) topk) := by
  rfl

theorem claim_C2_witness :
    (fused_topk 1 2 (fun _ e => (e : ℚ)) 1 true).length = 1 :=
  (claim_C2_routing_correctness 1 2 1 2 1 1 (fun _ e => (e : ℚ)) true none
    (by decide) (by decide) (by decide) (by decide) (by decide) (by decide)
    (by decide) (by decide)).1.1

theorem claim_C3_witness :
    grouped_topk_row 2 (fun _ => 0) 1 true 2 1 "softmax" none
      = Except.ok (grouped_topk_core (softmaxQ 2 (fun _ => 0)) 2 1 true
          2 1 none) :=
  (claim_C3_grouped_group_restriction 2 1 2 1 1 (fun _ => 0) true none
    (by decide) (by decide) (by decide) (by decide) (by decide)).1

/-! ## Kernel configuration selector (`get_default_config`,
`try_get_optimal_moe_config`)

Configurations are embedded as association lists `List (String × ℕ)`,
mirroring the Python dicts.  Python float divisions in the heuristics are
embedded as exact `ℚ` divisions. -/

def should_moe_wna16_use_cuda (num_valid_tokens group_size num_experts
    bit : ℕ) : Bool :=
  bit = 4 ∧ (group_size = 32 ∨ group_size = 64 ∨ group_size = 128) ∧
    ((num_valid_tokens : ℚ) / (num_experts : ℚ) ≤ 6)

/-- The `is_marlin` branch loop: first `block_size_m` in `[8,16,32,48,64]`
with `M * topk / E / block_size_m < 0.9`, else the last value 64. -/
def marlinBlockSizeM (M topk E : ℕ) : ℕ :=
  (([8, 16, 32, 48, 64] : List ℕ).find? (fun (bsm : ℕ) =>
    decide ((M * topk : ℚ) / (E : ℚ) / (bsm : ℚ) < 9 / 10))).getD 64

/-- `get_default_config` (fused_moe.py lines 738-797): the static heuristic
fallback used when no tuned configuration table exists. -/
def get_default_config (M E N K topk : ℕ) (dtype : Option String)
    (is_marlin : Bool) (block_shape : Option (List ℕ)) :
    List (String × ℕ) :=
  if dtype = some "fp8_w8a8" ∧ block_shape ≠ none then
    [("BLOCK_SIZE_M", 64),
     ("BLOCK_SIZE_N", (block_shape.getD []).getD 0 0),
     ("BLOCK_SIZE_K", (block_shape.getD []).getD 1 0),
     ("GROUP_SIZE_M", 32), ("num_warps", 4), ("num_stages", 3)]
  else if (dtype = some "int4_w4a16" ∨ dtype = some "int8_w8a16") ∧
      block_shape ≠ none then
    let bit := if dtype = some "int4_w4a16" then 4 else 8
    if should_moe_wna16_use_cuda (M * topk) ((block_shape.getD []).getD 1 0)
        E bit then
      [("BLOCK_SIZE_M", min 16 M)]
    else if M ≤ 20 then [("BLOCK_SIZE_M", 16), ("GROUP_SIZE_M", 1)]
    else if M ≤ 40 then [("BLOCK_SIZE_M", 32), ("GROUP_SIZE_M", 1)]
    else [("BLOCK_SIZE_M", 64), ("GROUP_SIZE_M", 1)]
  else if is_marlin then [("BLOCK_SIZE_M", marlinBlockSizeM M topk E)]
  else if M ≤ E then
    [("BLOCK_SIZE_M", 16), ("BLOCK_SIZE_N", 32), ("BLOCK_SIZE_K", 64),
     ("GROUP_SIZE_M", 1)]
  else
    [("BLOCK_SIZE_M", 64), ("BLOCK_SIZE_N", 64), ("BLOCK_SIZE_K", 32),
     ("GROUP_SIZE_M", 8)]

/-- `try_get_optimal_moe_config` (fused_moe.py lines 800-830).  The ambient
override (`get_config()`) and the tuned-table lookup (`get_moe_configs`,
a file-system read) are passed as explicit optional arguments; with a table
present the breakpoint with minimal `|key - M|` is chosen. -/
def try_get_optimal_moe_config (w1_shape w2_shape : ℕ × ℕ × ℕ) (top_k : ℕ)
    (dtype : Option String) (M : ℕ) (is_marlin : Bool)
    (block_shape : Option (List ℕ))
    (override_config : Option (List (String × ℕ)))
    (configs : Option (List (ℕ × List (String × ℕ)))) :
    List (String × ℕ) :=
  match override_config with
  | some c => c
  | none =>
    let E := w2_shape.1
    let N0 := w2_shape.2.2
    let N := if dtype = some "int4_w4a16" then N0 * 2 else N0
    match configs with
    | some cfgs =>
      match (cfgs.map Prod.fst).argmin
          (fun (x : ℕ) => ((x : ℤ) - (M : ℤ)).natAbs) with
      | some key => (List.lookup key cfgs).getD []
      | none => get_default_config M E N w1_shape.2.2 top_k dtype is_marlin
          block_shape
    | none => get_default_config M E N w1_shape.2.2 top_k dtype is_marlin
        block_shape

/-- Claim C9 counterexample: with `E = 8` experts and no tuned table, at
`M = E + 1 = 9` the heuristic already chooses the large-batch
`BLOCK_SIZE_M = 64` — identical to the choice at several hundred tokens —
not the small-batch 16 the claim asserts. -/
theorem claim_C9_counterexample :
    (get_default_config 9 8 14336 4096 2 none false none).lookup "BLOCK_SIZE_M"
        = some 64 ∧
    (get_default_config 512 8 14336 4096 2 none false none).lookup
        "BLOCK_SIZE_M" = some 64 ∧
    (get_default_config 9 8 14336 4096 2 none false none).lookup "BLOCK_SIZE_M"
        ≠ some 16 := by
  refine ⟨rfl, rfl, ?_⟩
  intro h
  exact absurd h (by decide)

/-- Claim C9 (amended): in the heuristic fallback (no tuned configuration,
non-quantized non-marlin path) the small-batch branch `BLOCK_SIZE_M = 16`
applies exactly for `M ≤ E` (e.g. at `M = E`); at `M = E + 1` the selector
already picks the large-batch `BLOCK_SIZE_M = 64`, the same value chosen for
`M` of several hundred tokens. -/
theorem claim_C9_default_config_batch_branches
    (M E N K topk : ℕ) (w1s : ℕ × ℕ × ℕ) :
    (M ≤ E →
      (try_get_optimal_moe_config w1s (E, K, N) topk none M false none
          none none).lookup "BLOCK_SIZE_M" = some 16) ∧
    (E < M →
      (try_get_optimal_moe_config w1s (E, K, N) topk none M false none
          none none).lookup "BLOCK_SIZE_M" = some 64) := by
  have hplain : try_get_optimal_moe_config w1s (E, K, N) topk none M false none
      none none = get_default_config M E N w1s.2.2 topk none false none := rfl
  rw [hplain]
  unfold get_default_config
  constructor
  · intro hle
    simp [hle]
  · intro hlt
    simp [Nat.not_le.mpr hlt]

theorem claim_C9_witness :
    (try_get_optimal_moe_config (8, 14336, 4096) (8, 4096, 7168) 2 none 8
        false none none none).lookup "BLOCK_SIZE_M" = some 16 ∧
    (try_get_optimal_moe_config (8, 14336, 4096) (8, 4096, 7168) 2 none 9
        false none none none).lookup "BLOCK_SIZE_M" = some 64 :=
  ⟨(claim_C9_default_config_batch_branches 8 8 7168 4096 2
      (8, 14336, 4096)).1 (by decide),
   (claim_C9_default_config_batch_branches 9 8 7168 4096 2
      (8, 14336, 4096)).2 (by decide)⟩

/-! ## AWQ linear method (`awq.py`)

`ops.awq_gemm`, `awq_dequantize_triton` and `torch.matmul` are external
primitives (CUDA/Triton kernels, not part of the translated source); the
embedding is parametric in them, so the theorems hold for every
implementation of these collaborators. -/

/-- `AWQConfig.__init__` (awq.py lines 21-37): validates `weight_bits` and
derives `pack_factor = 32 // weight_bits`.  Returns the stored fields
`(weight_bits, group_size, zero_point, modules_to_not_convert, pack_factor)`
or the raised `ValueError`. -/
def AWQConfig_init (weight_bits group_size : ℕ) (zero_point : Bool)
    (modules_to_not_convert : Option (List String)) :
    Except String (ℕ × ℕ × Bool × List String × ℕ) :=
  if weight_bits ≠ 4 then
    Except.error ("Currently, only 4-bit weight quantization is supported "
      ++ "for AWQ, but got " ++ toString weight_bits ++ " bits.")
  else
    Except.ok (weight_bits, group_size, zero_point,
      modules_to_not_convert.getD [], 32 / weight_bits)

/-- The argument tuple of one `ops.awq_gemm` call:
`(reshaped_x, qweight, scales, qzeros, pack_factor)`. -/
abbrev AwqGemmArgs : Type :=
  (ℕ → ℕ → ℚ) × (ℕ → ℕ → ℚ) × (ℕ → ℕ → ℚ) × (ℕ → ℕ → ℚ) × ℕ

/-- `AWQLinearMethod.apply_weights` (awq.py lines 166-192), for a 2-D
activation `x` (so `reshaped_x = x.reshape(-1, x.shape[-1]) = x` and
`x.shape[:-1].numel() = numTokens`).  Besides the result it returns the list
of `ops.awq_gemm` invocations (each with its full argument tuple), so that
the double computation is observable.  Note the source computes `out` inside
the conditional and then unconditionally rebinds `out` with a second
`awq_gemm` call, discarding the first result. -/
def AWQLinearMethod_apply_weights
    (awq_gemm : (ℕ → ℕ → ℚ) → (ℕ → ℕ → ℚ) → (ℕ → ℕ → ℚ) → (ℕ → ℕ → ℚ) →
      ℕ → (ℕ → ℕ → ℚ))
    (awq_dequantize_triton : (ℕ → ℕ → ℚ) → (ℕ → ℕ → ℚ) → (ℕ → ℕ → ℚ) →
      (ℕ → ℕ → ℚ))
    (matmul : (ℕ → ℕ → ℚ) → (ℕ → ℕ → ℚ) → (ℕ → ℕ → ℚ))
    (pack_factor numTokens : ℕ) (x qweight qzeros scales : ℕ → ℕ → ℚ)
    (bias : Option (ℕ → ℕ → ℚ)) : (ℕ → ℕ → ℚ) × List AwqGemmArgs :=
  let reshaped_x := x
  -- FP16_MATMUL_HEURISTIC_CONDITION = x.shape[:-1].numel() >= 256
  let fp16_matmul_heuristic_condition := 256 ≤ numTokens
  let branch : (ℕ → ℕ → ℚ) × List AwqGemmArgs :=
    if fp16_matmul_heuristic_condition then
      (matmul reshaped_x (awq_dequantize_triton qweight scales qzeros), [])
    else
      (awq_gemm reshaped_x qweight scales qzeros pack_factor,
       [(reshaped_x, qweight, scales, qzeros, pack_factor)])
  -- the branch result is dead: `out` is rebound unconditionally
  let out := awq_gemm reshaped_x qweight scales qzeros pack_factor
  let calls := branch.2 ++ [(reshaped_x, qweight, scales, qzeros, pack_factor)]
  let out := match bias with
    | none => out
    | some b => fun i j => out i j + b i j
  (out, calls)

/-- Claim C7: for every implementation of the external kernels and every
input, `apply_weights` returns `awq_gemm(reshaped_x, qweight, scales, qzeros,
pack_factor)` (plus bias when given) regardless of the
FP16_MATMUL_HEURISTIC_CONDITION — the conditional branch's result is
discarded — and when the condition is false `awq_gemm` is invoked twice with
identical argument tuples. -/
theorem claim_C7_awq_double_gemm
    (awq_gemm : (ℕ → ℕ → ℚ) → (ℕ → ℕ → ℚ) → (ℕ → ℕ → ℚ) → (ℕ → ℕ → ℚ) →
      ℕ → (ℕ → ℕ → ℚ))
    (awq_dequantize_triton : (ℕ → ℕ → ℚ) → (ℕ → ℕ → ℚ) → (ℕ → ℕ → ℚ) →
      (ℕ → ℕ → ℚ))
    (matmul : (ℕ → ℕ → ℚ) → (ℕ → ℕ → ℚ) → (ℕ → ℕ → ℚ))
    (pack_factor numTokens : ℕ) (x qweight qzeros scales : ℕ → ℕ → ℚ)
    (bias : Option (ℕ → ℕ → ℚ)) :
    ((AWQLinearMethod_apply_weights awq_gemm awq_dequantize_triton matmul
        pack_factor numTokens x qweight qzeros scales bias).1
      = match bias with
        | none => awq_gemm x qweight scales qzeros pack_factor
        | some b => fun i j =>
            awq_gemm x qweight scales qzeros pack_factor i j + b i j) ∧
    (numTokens < 256 →
      (AWQLinearMethod_apply_weights awq_gemm awq_dequantize_triton matmul
          pack_factor numTokens x qweight qzeros scales bias).2
        = [(x, qweight, scales, qzeros, pack_factor),
           (x, qweight, scales, qzeros, pack_factor)]) ∧
    (256 ≤ numTokens →
      (AWQLinearMethod_apply_weights awq_gemm awq_dequantize_triton matmul
          pack_factor numTokens x qweight qzeros scales bias).2
        = [(x, qweight, scales, qzeros, pack_factor)]) := by
  unfold AWQLinearMethod_apply_weights
  refine ⟨rfl, ?_, ?_⟩
  · intro hlt
    have hcond : ¬ (256 ≤ numTokens) := Nat.not_le.mpr hlt
    simp [hcond]
  · intro hge
    simp [hge]

theorem claim_C7_witness :
    (AWQLinearMethod_apply_weights
        (fun _ _ _ _ _ _ _ => 1) (fun _ _ _ _ _ => 2) (fun _ _ _ _ => 3)
        8 1 (fun _ _ => 0) (fun _ _ => 0) (fun _ _ => 0) (fun _ _ => 0)
        none).2
      = [((fun _ _ => 0), (fun _ _ => 0), (fun _ _ => 0), (fun _ _ => 0), 8),
         ((fun _ _ => 0), (fun _ _ => 0), (fun _ _ => 0), (fun _ _ => 0), 8)] :=
  (claim_C7_awq_double_gemm
    (fun _ _ _ _ _ _ _ => 1) (fun _ _ _ _ _ => 2) (fun _ _ _ _ => 3)
    8 1 (fun _ _ => 0) (fun _ _ => 0) (fun _ _ => 0) (fun _ _ => 0)
    none).2.1 (by decide)

/-! ## Effect trace of `fused_experts_impl` (assertion order and kernel
launches)

The value-level behaviour of the pipeline is embedded further below for C1;
here we embed the *control* behaviour of `fused_experts_impl` (fused_moe.py
lines 1213-1414): the order of its precondition checks relative to the
kernel launches of one (single-chunk) forward call.  Events are recorded in
source order; a raised error terminates the trace. -/

inductive TorchDtype
  | float32
  | float16
  | bfloat16
  | float64
  | int32
deriving DecidableEq, Repr

inductive MoeEvent
  | quantPrepare
  | align
  | gemm (mulRoutedWeight : Bool)
  | activationKernel
  | moeSum
deriving DecidableEq, Repr

/-- The shape/layout/flag arguments of `fused_experts_impl` that its
precondition checks and launch decisions depend on. -/
structure MoeArgs where
  numTokens : ℕ
  hiddenSize : ℕ
  E : ℕ
  N : ℕ
  Kw1 : ℕ
  topkShape : ℕ × ℕ
  idsShape : ℕ × ℕ
  hsContiguous : Bool
  w1LastStride : ℕ
  w2LastStride : ℕ
  dtype : TorchDtype
  activation : String
  applyRouterWeightOnInput : Bool
  useInt4W4A16 : Bool
deriving DecidableEq, Repr

/-- The hidden-size precondition (`hidden_states.shape[1] // 2 ==
w1.shape[2]` for int4-packed weights, else `hidden_states.shape[1] ==
w1.shape[2]`). -/
def hiddenSizeOk (a : MoeArgs) : Prop :=
  if a.useInt4W4A16 then a.hiddenSize / 2 = a.Kw1 else a.hiddenSize = a.Kw1

instance (a : MoeArgs) : Decidable (hiddenSizeOk a) := by
  unfold hiddenSizeOk
  infer_instance

/-- The supported compute dtypes (`[torch.float32, torch.float16,
torch.bfloat16]`). -/
def dtypeOk (a : MoeArgs) : Prop :=
  a.dtype = .float32 ∨ a.dtype = .float16 ∨ a.dtype = .bfloat16

instance (a : MoeArgs) : Decidable (dtypeOk a) := by
  unfold dtypeOk
  infer_instance

/-- The supported activation names (`silu`, `gelu`). -/
def activationOk (a : MoeArgs) : Prop :=
  a.activation = "silu" ∨ a.activation = "gelu"

instance (a : MoeArgs) : Decidable (activationOk a) := by
  unfold activationOk
  infer_instance

/-- `fused_experts_impl`, control view (single chunk,
`numTokens ≤ VLLM_FUSED_MOE_CHUNK_SIZE = 32768`, in which case the chunk
loop body runs exactly once; an empty batch breaks out before any launch).
Returns the events issued in source order and the raised error, if any.
The `compute_type` dispatch (lines 1289-1296) cannot raise once the dtype
assert (line 1246) has passed, so it contributes no event. -/
def fused_experts_impl_trace (a : MoeArgs) : List MoeEvent × Option String :=
  if ¬ hiddenSizeOk a then
    ([], some "Hidden size mismatch")
  else if a.topkShape ≠ a.idsShape then
    ([], some "topk shape mismatch")
  else if ¬ a.hsContiguous then
    ([], some "Hidden_states must be contiguous")
  else if a.w1LastStride ≠ 1 then
    ([], some "Stride of last dimension must be 1")
  else if a.w2LastStride ≠ 1 then
    ([], some "Stride of last dimension must be 1")
  else if ¬ dtypeOk a then
    ([], some "hidden_states.dtype not in [float32, float16, bfloat16]")
  else if a.numTokens = 0 then
    ([], none)
  else
    let beforeActivation :=
      [MoeEvent.quantPrepare, MoeEvent.align,
       MoeEvent.gemm a.applyRouterWeightOnInput]
    if ¬ activationOk a then
      (beforeActivation, some ("Unsupported FusedMoe activation: "
        ++ a.activation))
    else
      (beforeActivation
        ++ [MoeEvent.activationKernel, MoeEvent.quantPrepare,
            MoeEvent.gemm (!a.applyRouterWeightOnInput), MoeEvent.moeSum],
       none)

/-- The routing-weight flags of the grouped-GEMM launches of a trace. -/
def gemmFlags (evs : List MoeEvent) : List Bool :=
  evs.filterMap (fun e => match e with
    | MoeEvent.gemm m => some m
    | _ => none)

set_option maxHeartbeats 1000000 in
/-- Claim C6: in every successful (non-raising, non-empty) forward call,
exactly two grouped-GEMM launches occur per chunk; the first receives
`mul_routed_weight = apply_router_weight_on_input` and the second its boolean
negation, so the routing weight is applied exactly once — never on both
sides, never on neither. -/
theorem claim_C6_router_weight_applied_once (a : MoeArgs)
    (hne : 0 < a.numTokens)
    (hok : (fused_experts_impl_trace a).2 = none) :
    gemmFlags (fused_experts_impl_trace a).1
      = [a.applyRouterWeightOnInput, !a.applyRouterWeightOnInput] ∧
    (gemmFlags (fused_experts_impl_trace a).1).count true = 1 := by
  unfold fused_experts_impl_trace at hok ⊢
  split_ifs at hok ⊢ <;>
    first
      | omega
      | exact ⟨by rfl,
          by cases hflag : a.applyRouterWeightOnInput <;>
            simp [gemmFlags, hflag]⟩

theorem claim_C6_witness :
    gemmFlags (fused_experts_impl_trace
      { numTokens := 8, hiddenSize := 16, E := 4, N := 16, Kw1 := 16,
        topkShape := (8, 2), idsShape := (8, 2), hsContiguous := true,
        w1LastStride := 1, w2LastStride := 1, dtype := .float32,
        activation := "silu", applyRouterWeightOnInput := false,
        useInt4W4A16 := false }).1 = [false, true] :=
  (claim_C6_router_weight_applied_once _ (by decide) (by decide)).1

/-- The listed precondition violations of the forward call (fused_moe.py
lines 1235-1248 and 1365-1376). -/
def violatesPrecondition (a : MoeArgs) : Prop :=
  ¬ hiddenSizeOk a ∨
  a.topkShape ≠ a.idsShape ∨
  ¬ a.hsContiguous ∨ a.w1LastStride ≠ 1 ∨ a.w2LastStride ≠ 1 ∨
  ¬ dtypeOk a ∨ ¬ activationOk a

set_option maxHeartbeats 1600000 in
/-- Claim C8 (amended): every listed precondition violation raises an error
that is surfaced to the caller (no retry exists: the trace ends at the
raise).  The shape/contiguity/stride/dtype violations and the AWQ
weight-bits check raise before any kernel launch (empty event trace); the
unsupported-activation violation, however, raises only *after* the first
grouped-GEMM launch of the first chunk, not before. -/
theorem claim_C8_precondition_failures (a : MoeArgs) (hne : 0 < a.numTokens) :
    (violatesPrecondition a → (fused_experts_impl_trace a).2 ≠ none) ∧
    (∀ msg, (fused_experts_impl_trace a).2 = some msg →
      (fused_experts_impl_trace a).1 = [] ∨
      (msg = "Unsupported FusedMoe activation: " ++ a.activation ∧
       (fused_experts_impl_trace a).1
         = [MoeEvent.quantPrepare, MoeEvent.align,
            MoeEvent.gemm a.applyRouterWeightOnInput])) ∧
    (∀ wb gz zp m, wb ≠ 4 →
      ∃ errmsg, AWQConfig_init wb gz zp m = Except.error errmsg) := by
  refine ⟨?_, ?_, ?_⟩
  · intro hviol hnone
    unfold fused_experts_impl_trace at hnone
    unfold violatesPrecondition at hviol
    split_ifs at hnone <;>
      first
        | omega
        | tauto
  · intro msg hmsg
    unfold fused_experts_impl_trace at hmsg ⊢
    split_ifs at hmsg ⊢ <;>
      first
        | (left; rfl)
        | (right
           refine ⟨?_, rfl⟩
           exact ((Option.some.injEq _ _).mp hmsg).symm)
  · intro wb gz zp m hwb
    exact ⟨_, by unfold AWQConfig_init; rw [if_pos hwb]⟩

theorem claim_C8_counterexample :
    (fused_experts_impl_trace
      { numTokens := 8, hiddenSize := 16, E := 4, N := 16, Kw1 := 16,
        topkShape := (8, 2), idsShape := (8, 2), hsContiguous := true,
        w1LastStride := 1, w2LastStride := 1, dtype := .float32,
        activation := "gelu_tanh", applyRouterWeightOnInput := false,
        useInt4W4A16 := false }).2
      = some "Unsupported FusedMoe activation: gelu_tanh" ∧
    MoeEvent.gemm false ∈ (fused_experts_impl_trace
      { numTokens := 8, hiddenSize := 16, E := 4, N := 16, Kw1 := 16,
        topkShape := (8, 2), idsShape := (8, 2), hsContiguous := true,
        w1LastStride := 1, w2LastStride := 1, dtype := .float32,
        activation := "gelu_tanh", applyRouterWeightOnInput := false,
        useInt4W4A16 := false }).1 := by
  constructor
  · rfl
  · decide

theorem claim_C8_witness :
    ∃ errmsg, AWQConfig_init 8 128 true none = Except.error errmsg :=
  (claim_C8_precondition_failures
    { numTokens := 8, hiddenSize := 16, E := 4, N := 16, Kw1 := 16,
      topkShape := (8, 2), idsShape := (8, 2), hsContiguous := true,
      w1LastStride := 1, w2LastStride := 1, dtype := .float32,
      activation := "silu", applyRouterWeightOnInput := false,
      useInt4W4A16 := false } (by decide)).2.2 8 128 true none (by decide)

/-! ## Write lists and chunked reduction sums -/

/-- Apply a list of ((row, col), value) stores to an output tensor, in
order (later stores win; in the verified configurations all stores to one
cell agree, so the order is immaterial). -/
def applyWrites (ws : List ((ℕ × ℕ) × ℚ)) (C0 : ℕ → ℕ → ℚ) : ℕ → ℕ → ℚ :=
  ws.foldl (fun C w => fun p q =>
    if p = w.1.1 ∧ q = w.1.2 then w.2 else C p q) C0

lemma applyWrites_append (ws1 ws2 : List ((ℕ × ℕ) × ℚ)) (C0 : ℕ → ℕ → ℚ) :
    applyWrites (ws1 ++ ws2) C0 = applyWrites ws2 (applyWrites ws1 C0) := by
  unfold applyWrites
  rw [List.foldl_append]

lemma applyWrites_not_mem (ws : List ((ℕ × ℕ) × ℚ)) (C0 : ℕ → ℕ → ℚ)
    (p q : ℕ) (h : ∀ w ∈ ws, w.1 ≠ (p, q)) :
    applyWrites ws C0 p q = C0 p q := by
  induction ws generalizing C0 with
  | nil => rfl
  | cons w ws ih =>
    have hw : w.1 ≠ (p, q) := h w (List.mem_cons_self _ _)
    have hne : ¬ (p = w.1.1 ∧ q = w.1.2) := by
      intro ⟨h1, h2⟩
      exact hw (Prod.ext_iff.mpr ⟨h1.symm, h2.symm⟩)
    rw [show applyWrites (w :: ws) C0 = applyWrites ws
        (fun p q => if p = w.1.1 ∧ q = w.1.2 then w.2 else C0 p q) from rfl,
      ih _ (fun w' hw' => h w' (List.mem_cons_of_mem _ hw'))]
    simp [hne]

lemma applyWrites_agree (ws : List ((ℕ × ℕ) × ℚ)) (C0 : ℕ → ℕ → ℚ)
    (p q : ℕ) (v : ℚ) (hmem : ((p, q), v) ∈ ws)
    (hag : ∀ w ∈ ws, w.1 = (p, q) → w.2 = v) :
    applyWrites ws C0 p q = v := by
  induction ws using List.reverseRecOn generalizing C0 with
  | nil => simp at hmem
  | append_singleton ws w ih =>
    rw [applyWrites_append]
    by_cases hw : w.1 = (p, q)
    · have : applyWrites [w] (applyWrites ws C0) p q = w.2 := by
        unfold applyWrites
        simp only [List.foldl_cons, List.foldl_nil]
        rw [if_pos ⟨(congrArg Prod.fst hw).symm, (congrArg Prod.snd hw).symm⟩]
      rw [this]
      exact hag w (List.mem_append_right _ (List.mem_cons_self _ _)) hw
    · have hstep : applyWrites [w] (applyWrites ws C0) p q
          = applyWrites ws C0 p q := by
        unfold applyWrites
        simp only [List.foldl_cons, List.foldl_nil]
        have : ¬ (p = w.1.1 ∧ q = w.1.2) := by
          intro ⟨h1, h2⟩
          exact hw (Prod.ext_iff.mpr ⟨h1.symm, h2.symm⟩)
        rw [if_neg this]
      rw [hstep]
      have hmem' : ((p, q), v) ∈ ws := by
        rcases List.mem_append.mp hmem with h | h
        · exact h
        · exfalso
          rcases List.mem_cons.mp h with h' | h'
          · exact hw (by rw [← h'])
          · simp at h'
      exact ih C0 hmem' (fun w' hw' => hag w' (List.mem_append_left _ hw'))

/-- Reindexing a doubly-blocked reduction sum as a flat sum. -/
lemma sum_chunks (C BK : ℕ) (g : ℕ → ℚ) :
    (∑ kc ∈ Finset.range C, ∑ kk ∈ Finset.range BK, g (kc * BK + kk))
      = ∑ p ∈ Finset.range (C * BK), g p := by
  induction C with
  | zero => simp
  | succ n ih =>
    rw [Finset.sum_range_succ, ih, Nat.succ_mul, Finset.sum_range_add]

/-- The masked blocked reduction over `cdiv(K, BK)` sub-blocks of width `BK`
(zero off the end) equals the plain reduction over `K`. -/
lemma sum_chunks_ite (K BK : ℕ) (hBK : 0 < BK) (g : ℕ → ℚ) :
    (∑ kc ∈ Finset.range (cdivN K BK), ∑ kk ∈ Finset.range BK,
      (if kc * BK + kk < K then g (kc * BK + kk) else 0))
      = ∑ p ∈ Finset.range K, g p := by
  rw [sum_chunks (cdivN K BK) BK (fun p => if p < K then g p else 0)]
  have hKle : K ≤ cdivN K BK * BK := le_cdivN_mul K hBK
  rw [← Finset.sum_subset (Finset.range_subset.mpr hKle)
    (fun x _ hx => if_neg (by simpa using hx))]
  exact Finset.sum_congr rfl (fun x hx => if_pos (Finset.mem_range.mp hx))

/-! ## Token alignment (`moe_align_block_size`, spec-modelled)

The flattened routing slot `f = token * top_k + slot` (`0 ≤ f < M * top_k`)
is assigned to expert `eOf f`. -/

/-- The flattened slots assigned to expert `e`, in ascending order. -/
def alignGroup (Mt : ℕ) (eOf : ℕ → ℕ) (e : ℕ) : List ℕ :=
  (List.range Mt).filter (fun f => eOf f = e)

/-- Pad a group to the next multiple of `B` with the sentinel `pad`. -/
def padToMultiple (B pad : ℕ) (l : List ℕ) : List ℕ :=
  l ++ List.replicate ((B - l.length % B) % B) pad

/-- Modelled from the spec: the `sorted_token_ids` prefix produced by the
external `moe_align_block_size` primitive — flattened slots grouped
contiguously by expert, each group padded to a multiple of the tile row
count `B` with the sentinel `Mt` (= `num_valid_tokens`). -/
def moe_align_sorted (Mt E B : ℕ) (eOf : ℕ → ℕ) : List ℕ :=
  (List.range E).flatMap (fun e => padToMultiple B Mt (alignGroup Mt eOf e))


/-- Translate a global expert index through the optional expert-parallel map
(`expert_map`), `-1` marking "absent on this shard". -/
def emapApply (emap : Option (ℕ → ℤ)) (e : ℕ) : ℤ :=
  match emap with
  | none => (e : ℤ)
  | some m => m e

/-- Modelled from the spec: the per-row-tile `expert_ids` array — for each
tile the (expert-parallel translated) expert index, `-1` marking an expert
absent on this shard. -/
def moe_align_experts (Mt E B : ℕ) (eOf : ℕ → ℕ)
    (emap : Option (ℕ → ℤ)) : List ℤ :=
  (List.range E).flatMap (fun e =>
    List.replicate ((padToMultiple B Mt (alignGroup Mt eOf e)).length / B)
      (emapApply emap e))

/-- Modelled from the spec: `moe_align_block_size(topk_ids, block_size,
num_experts, expert_map)` — returns `sorted_token_ids` (padded with the
sentinel up to the fixed allocation `M * top_k + E * (B - 1)`,
`max_num_tokens_padded`), `expert_ids`, and `num_tokens_post_padded`. -/
def moe_align_block_size (Mt E B : ℕ) (eOf : ℕ → ℕ)
    (emap : Option (ℕ → ℤ)) : List ℕ × List ℤ × ℕ :=
  let core := moe_align_sorted Mt E B eOf
  (core ++ List.replicate (Mt + E * (B - 1) - core.length) Mt,
   moe_align_experts Mt E B eOf emap,
   core.length)

lemma padToMultiple_dvd {B : ℕ} (hB : 0 < B) (pad : ℕ) (l : List ℕ) :
    B ∣ (padToMultiple B pad l).length := by
  unfold padToMultiple
  rw [List.length_append, List.length_replicate]
  rcases Nat.eq_zero_or_pos (l.length % B) with hr | hr
  · rw [hr, Nat.sub_zero, Nat.mod_self, Nat.add_zero]
    exact Nat.dvd_of_mod_eq_zero hr
  · have hrB : l.length % B < B := Nat.mod_lt _ hB
    have hlt : B - l.length % B < B := by omega
    rw [Nat.mod_eq_of_lt hlt]
    have hdm := Nat.div_add_mod l.length B
    have hd : B * (l.length / B + 1) = B * (l.length / B) + B := by ring
    exact ⟨l.length / B + 1, by omega⟩

lemma count_range (f n : ℕ) :
    (List.range n).count f = if f < n then 1 else 0 := by
  induction n with
  | zero => simp
  | succ m ih =>
    rw [List.range_succ, List.count_append, ih]
    by_cases h : f < m
    · have : f ≠ m := by omega
      simp [h, Nat.lt_succ_of_lt h, List.count_singleton, this]
    · by_cases h' : f = m
      · subst h'
        simp [h, Nat.lt_succ_self]
      · have : ¬ f < m + 1 := by omega
        simp [h, this, List.count_singleton, h']

lemma alignGroup_count (Mt : ℕ) (eOf : ℕ → ℕ) (e f : ℕ) :
    (alignGroup Mt eOf e).count f
      = if f < Mt ∧ eOf f = e then 1 else 0 := by
  unfold alignGroup
  by_cases he : eOf f = e
  · rw [List.count_filter (by simp [he]), count_range]
    by_cases hf : f < Mt <;> simp [hf, he]
  · have : f ∉ (List.range Mt).filter (fun f => eOf f = e) := by
      intro hmem
      exact he (by simpa using (List.mem_filter.mp hmem).2)
    rw [List.count_eq_zero.mpr this]
    simp [he]

lemma padToMultiple_count (B pad : ℕ) (l : List ℕ) (f : ℕ) (hf : f ≠ pad) :
    (padToMultiple B pad l).count f = l.count f := by
  unfold padToMultiple
  rw [List.count_append, List.count_replicate,
    if_neg (by simpa using Ne.symm hf), Nat.add_zero]

lemma moe_align_sorted_count (Mt E B : ℕ) (eOf : ℕ → ℕ) (f : ℕ)
    (hf : f < Mt) (he : eOf f < E) :
    (moe_align_sorted Mt E B eOf).count f = 1 := by
  unfold moe_align_sorted
  rw [List.count_flatMap]
  have hmap : ∀ e ∈ List.range E,
      ((List.count f ∘ fun e => padToMultiple B Mt (alignGroup Mt eOf e)) e)
        = if eOf f = e then 1 else 0 := by
    intro e _
    have hne : f ≠ Mt := by omega
    simp only [Function.comp]
    rw [padToMultiple_count B Mt _ f hne, alignGroup_count]
    by_cases h : eOf f = e <;> simp [h, hf]
  rw [List.map_congr_left hmap]
  have hfin : ((List.range E).map (fun e => if eOf f = e then 1 else 0)).sum
      = ∑ e ∈ Finset.range E, (if e = eOf f then 1 else 0) := by
    have h0 : ((List.range E).map (fun e => if eOf f = e then 1 else 0)).sum
        = ∑ e ∈ Finset.range E, (if eOf f = e then 1 else 0) := rfl
    rw [h0]
    exact Finset.sum_congr rfl (fun e _ => by
      by_cases h : eOf f = e
      · simp [h]
      · rw [if_neg h, if_neg (fun hc => h hc.symm)])
  rw [hfin, Finset.sum_ite_eq' (Finset.range E) (eOf f) (fun _ => 1),
    if_pos (Finset.mem_range.mpr he)]

lemma moe_align_sorted_mem_le (Mt E B : ℕ) (eOf : ℕ → ℕ) (v : ℕ)
    (hv : v ∈ moe_align_sorted Mt E B eOf) : v ≤ Mt := by
  unfold moe_align_sorted at hv
  obtain ⟨e, _, hv⟩ := List.mem_flatMap.mp hv
  unfold padToMultiple at hv
  rcases List.mem_append.mp hv with h | h
  · have := (List.mem_filter.mp h).1
    have := List.mem_range.mp this
    omega
  · have := List.eq_of_mem_replicate h
    omega

lemma two_getD_le_count (f : ℕ) :
    ∀ (l : List ℕ) (i j : ℕ), i < j → j < l.length →
      l.getD i 0 = f → l.getD j 0 = f → 2 ≤ l.count f := by
  intro l
  induction l with
  | nil => intro i j _ hj _ _; simp at hj
  | cons x xs ih =>
    intro i j hij hj hi' hj'
    cases i with
    | zero =>
      have hx : x = f := by simpa using hi'
      cases j with
      | zero => omega
      | succ j' =>
        have hjv : xs.getD j' 0 = f := by simpa using hj'
        have hjlen : j' < xs.length := by simpa using hj
        have hmem : f ∈ xs := by
          rw [← hjv, List.getD_eq_getElem xs 0 hjlen]
          exact List.getElem_mem hjlen
        have hpos : 0 < xs.count f := List.count_pos_iff.mpr hmem
        subst hx
        rw [List.count_cons_self]
        omega
    | succ i' =>
      cases j with
      | zero => omega
      | succ j' =>
        have hiv : xs.getD i' 0 = f := by simpa using hi'
        have hjv : xs.getD j' 0 = f := by simpa using hj'
        have hjlen : j' < xs.length := by simpa using hj
        have h2 := ih i' j' (by omega) hjlen hiv hjv
        rw [List.count_cons]
        omega

lemma getD_inj_of_count_one (l : List ℕ) (f : ℕ) (hc : l.count f = 1) :
    ∀ i j, i < l.length → j < l.length →
      l.getD i 0 = f → l.getD j 0 = f → i = j := by
  intro i j hi hj hfi hfj
  rcases lt_trichotomy i j with h | h | h
  · have := two_getD_le_count f l i j h hj hfi hfj
    omega
  · exact h
  · have := two_getD_le_count f l j i h hi hfj hfi
    omega

lemma count_one_exists_getD (l : List ℕ) (f : ℕ) (hc : l.count f = 1) :
    ∃ i, i < l.length ∧ l.getD i 0 = f := by
  have hmem : f ∈ l := List.count_pos_iff.mp (by omega)
  obtain ⟨n, hn, hval⟩ := List.mem_iff_getElem.mp hmem
  exact ⟨n, hn, by rw [List.getD_eq_getElem l 0 hn, hval]⟩

/-- In a concatenation of expert segments whose lengths are multiples of the
tile row count, the per-tile expert value governs every row of the tile. -/
lemma segs_coherent {B : ℕ} (hB : 0 < B) (P : ℕ → ℤ → Prop) :
    ∀ (segs : List (List ℕ × ℤ)),
      (∀ s ∈ segs, B ∣ s.1.length ∧ ∀ v ∈ s.1, P v s.2) →
      ∀ i, i < (segs.flatMap (fun s => s.1)).length →
        P ((segs.flatMap (fun s => s.1)).getD i 0)
          ((segs.flatMap (fun s =>
              List.replicate (s.1.length / B) s.2)).getD (i / B) (-1)) := by
  intro segs
  induction segs with
  | nil => intro _ i hi; simp at hi
  | cons s segs ih =>
    intro hsegs i hi
    obtain ⟨hdvd, hP⟩ := hsegs s (List.mem_cons_self _ _)
    rw [List.flatMap_cons] at hi ⊢
    rw [List.flatMap_cons]
    rw [List.length_append] at hi
    by_cases hil : i < s.1.length
    · rw [List.getD_append _ _ _ _ hil]
      have hexp : i / B < (List.replicate (s.1.length / B) s.2).length := by
        rw [List.length_replicate]
        exact Nat.div_lt_div_of_lt_of_dvd hdvd hil
      rw [List.getD_append _ _ _ _ hexp]
      have hval : s.1.getD i 0 ∈ s.1 := by
        rw [List.getD_eq_getElem _ _ hil]
        exact List.getElem_mem hil
      have hrep : (List.replicate (s.1.length / B) s.2).getD (i / B) (-1)
          = s.2 := by
        rw [List.getD_eq_getElem _ _ hexp]
        simp
      rw [hrep]
      exact hP _ hval
    · push_neg at hil
      rw [List.getD_append_right _ _ _ _ hil]
      obtain ⟨q, hq⟩ := hdvd
      have hexplen : (List.replicate (s.1.length / B) s.2).length
          = s.1.length / B := List.length_replicate _ _
      have hdivle : s.1.length / B ≤ i / B := Nat.div_le_div_right hil
      rw [List.getD_append_right _ _ _ _ (by rw [hexplen]; exact hdivle)]
      have harith : (i - s.1.length) / B = i / B - s.1.length / B := by
        rw [hq, Nat.mul_div_cancel_left q hB]
        rw [hq] at hil
        rw [Nat.sub_mul_div i B q hil]
      rw [hexplen, ← harith]
      exact ih (fun s' hs' => hsegs s' (List.mem_cons_of_mem _ hs'))
        (i - s.1.length) (by omega)

/-- The expert id recorded for the tile containing position `i` matches the
expert of the (valid) flattened slot stored at `i`. -/
lemma moe_align_expert_at (Mt E B : ℕ) (hB : 0 < B) (eOf : ℕ → ℕ)
    (emap : Option (ℕ → ℤ)) (i : ℕ)
    (hi : i < (moe_align_sorted Mt E B eOf).length)
    (hval : (moe_align_sorted Mt E B eOf).getD i 0 < Mt) :
    (moe_align_experts Mt E B eOf emap).getD (i / B) (-1)
      = emapApply emap (eOf ((moe_align_sorted Mt E B eOf).getD i 0)) := by
  have hsorted : moe_align_sorted Mt E B eOf
      = ((List.range E).map (fun e =>
          (padToMultiple B Mt (alignGroup Mt eOf e),
           emapApply emap e))).flatMap (fun s => s.1) := by
    unfold moe_align_sorted
    rw [List.flatMap_map]
  have hexperts : moe_align_experts Mt E B eOf emap
      = ((List.range E).map (fun e =>
          (padToMultiple B Mt (alignGroup Mt eOf e),
           emapApply emap e))).flatMap
          (fun s => List.replicate (s.1.length / B) s.2) := by
    unfold moe_align_experts
    exact (List.flatMap_map
      (fun e => (padToMultiple B Mt (alignGroup Mt eOf e), emapApply emap e))
      (fun s => List.replicate (s.1.length / B) s.2)
      (List.range E)).symm
  have hP := segs_coherent hB
    (fun v x => v < Mt → x = emapApply emap (eOf v))
    ((List.range E).map (fun e =>
      (padToMultiple B Mt (alignGroup Mt eOf e), emapApply emap e)))
    (by
      intro s hs
      obtain ⟨e, _, rfl⟩ := List.mem_map.mp hs
      refine ⟨padToMultiple_dvd hB _ _, ?_⟩
      intro v hv hvMt
      unfold padToMultiple at hv
      rcases List.mem_append.mp hv with h | h
      · have := (List.mem_filter.mp h).2
        have heq : eOf v = e := by simpa using this
        rw [heq]
      · have := List.eq_of_mem_replicate h
        omega)
    i (by rw [← hsorted]; exact hi)
  rw [← hsorted, ← hexperts] at hP
  exact hP hval

lemma flatMap_length_dvd {α β : Type} (B : ℕ) (l : List α) (f : α → List β)
    (h : ∀ a ∈ l, B ∣ (f a).length) : B ∣ (l.flatMap f).length := by
  induction l with
  | nil => simp
  | cons a l ih =>
    rw [List.flatMap_cons, List.length_append]
    exact Nat.dvd_add (h a (List.mem_cons_self _ _))
      (ih (fun a' ha' => h a' (List.mem_cons_of_mem _ ha')))

lemma moe_align_sorted_length_dvd (Mt E B : ℕ) (hB : 0 < B) (eOf : ℕ → ℕ) :
    B ∣ (moe_align_sorted Mt E B eOf).length :=
  flatMap_length_dvd B _ _ (fun a _ => padToMultiple_dvd hB _ _)

lemma sum_countP_eq_length (E : ℕ) (eOf : ℕ → ℕ) :
    ∀ (l : List ℕ), (∀ v ∈ l, eOf v < E) →
      ((List.range E).map (fun e =>
        l.countP (fun f => eOf f = e))).sum = l.length := by
  intro l
  induction l with
  | nil =>
    intro _
    simp
  | cons v l ih =>
    intro hb
    have hstep : ∀ e ∈ List.range E,
        ((v :: l).countP (fun f => eOf f = e))
          = l.countP (fun f => eOf f = e)
            + (if eOf v = e then 1 else 0) := by
      intro e _
      rw [List.countP_cons]
      by_cases h : eOf v = e <;> simp [h]
    rw [List.map_congr_left hstep]
    have hfin : ((List.range E).map (fun e =>
        l.countP (fun f => eOf f = e) + (if eOf v = e then 1 else 0))).sum
        = (∑ e ∈ Finset.range E, l.countP (fun f => eOf f = e))
          + ∑ e ∈ Finset.range E, (if e = eOf v then 1 else 0) := by
      have h0 : ((List.range E).map (fun e =>
          l.countP (fun f => eOf f = e) + (if eOf v = e then 1 else 0))).sum
          = ∑ e ∈ Finset.range E,
              (l.countP (fun f => eOf f = e) + (if eOf v = e then 1 else 0)) :=
        rfl
      rw [h0, Finset.sum_add_distrib]
      congr 1
      exact Finset.sum_congr rfl (fun e _ => by
        by_cases h : eOf v = e
        · simp [h]
        · rw [if_neg h, if_neg (fun hc => h hc.symm)])
    rw [hfin, Finset.sum_ite_eq' (Finset.range E) (eOf v) (fun _ => 1),
      if_pos (Finset.mem_range.mpr (hb v (List.mem_cons_self _ _)))]
    have hl : (∑ e ∈ Finset.range E, l.countP (fun f => eOf f = e))
        = l.length := by
      have h0 : ((List.range E).map (fun e =>
          l.countP (fun f => eOf f = e))).sum
          = ∑ e ∈ Finset.range E, l.countP (fun f => eOf f = e) := rfl
      rw [← h0]
      exact ih (fun v' hv' => hb v' (List.mem_cons_of_mem _ hv'))
    rw [hl, List.length_cons]

lemma sum_alignGroup_lengths (Mt E : ℕ) (eOf : ℕ → ℕ)
    (hb : ∀ f < Mt, eOf f < E) :
    ((List.range E).map (fun e => (alignGroup Mt eOf e).length)).sum = Mt := by
  have h : ∀ e ∈ List.range E, (alignGroup Mt eOf e).length
      = (List.range Mt).countP (fun f => eOf f = e) := by
    intro e _
    unfold alignGroup
    rw [List.countP_eq_length_filter]
  rw [List.map_congr_left h,
    sum_countP_eq_length E eOf _ (fun v hv => hb v (List.mem_range.mp hv))]
  exact List.length_range Mt

lemma padToMultiple_length_le {B : ℕ} (hB : 0 < B) (pad : ℕ) (l : List ℕ) :
    (padToMultiple B pad l).length ≤ l.length * B := by
  unfold padToMultiple
  rw [List.length_append, List.length_replicate]
  rcases Nat.eq_zero_or_pos l.length with h0 | hpos
  · simp [h0]
  · have hmod : (B - l.length % B) % B < B := Nat.mod_lt _ hB
    have hmul : l.length + B - 1 ≤ l.length * B := by
      have h1 : l.length * B = l.length * (B - 1) + l.length := by
        cases B with
        | zero => omega
        | succ b => simp [Nat.mul_succ]
      have h2 : B - 1 ≤ l.length * (B - 1) :=
        Nat.le_mul_of_pos_left _ hpos
      omega
    omega

lemma moe_align_sorted_length_le (Mt E B : ℕ) (hB : 0 < B) (eOf : ℕ → ℕ)
    (hb : ∀ f < Mt, eOf f < E) :
    (moe_align_sorted Mt E B eOf).length ≤ Mt * B := by
  unfold moe_align_sorted
  rw [List.length_flatMap]
  have hle : ((List.range E).map
      (List.length ∘ fun e => padToMultiple B Mt (alignGroup Mt eOf e))).sum
      ≤ ((List.range E).map
        (fun e => (alignGroup Mt eOf e).length * B)).sum := by
    apply List.sum_le_sum
    intro e _
    exact padToMultiple_length_le hB _ _
  calc ((List.range E).map
      (List.length ∘ fun e => padToMultiple B Mt (alignGroup Mt eOf e))).sum
      ≤ ((List.range E).map (fun e => (alignGroup Mt eOf e).length * B)).sum :=
        hle
    _ = ((List.range E).map (fun e => (alignGroup Mt eOf e).length)).sum
        * B := List.sum_map_mul_right _ _ _
    _ = Mt * B := by rw [sum_alignGroup_lengths Mt E eOf hb]

/-! ## The grouped GEMM kernel (`fused_moe_kernel`)

One program instance (tile) of the Triton kernel, full-precision path
(fused_moe.py lines 328-461): the early exit for tiles beyond
`num_tokens_post_padded`, the absent-expert (`expert_ids[pid_m] == -1`)
zero-fill branch shared by all quantization modes, and the masked
`BLOCK_SIZE_K`-blocked reduction with optional routing-weight
multiplication and masked store.  Loads use `other=0` semantics for masked
lanes.  Along with the write list each tile reports the number of reduction
iterations it executes (its multiply-accumulate work). -/
def fused_moe_kernel_tile
    (A : ℕ → ℕ → ℚ) (Bw : ℕ → ℕ → ℕ → ℚ) (topkW : ℕ → ℚ)
    (sorted : List ℕ) (experts : List ℤ) (numPost numValid N K : ℕ)
    (mul : Bool) (tk BM BN BK : ℕ) (pm pn : ℕ) :
    List ((ℕ × ℕ) × ℚ) × ℕ :=
  if numPost ≤ pm * BM then ([], 0)
  else if experts.getD pm (-1) = -1 then
    -- write_zeros_to_output (lines 31-40): store 0 under the c_mask
    (((List.range BM).flatMap (fun r =>
      if sorted.getD (pm * BM + r) 0 < numValid then
        ((List.range BN).filter (fun j => pn * BN + j < N)).map
          (fun j => ((sorted.getD (pm * BM + r) 0, pn * BN + j), (0 : ℚ)))
      else [])),
     0)
  else
    (((List.range BM).flatMap (fun r =>
      if sorted.getD (pm * BM + r) 0 < numValid then
        ((List.range BN).filter (fun j => pn * BN + j < N)).map
          (fun j => ((sorted.getD (pm * BM + r) 0, pn * BN + j),
            (if mul then
               (if sorted.getD (pm * BM + r) 0 < numValid then
                  topkW (sorted.getD (pm * BM + r) 0) else 0)
             else 1)
            * ∑ kc ∈ Finset.range (cdivN K BK), ∑ kk ∈ Finset.range BK,
              ((if sorted.getD (pm * BM + r) 0 < numValid
                  ∧ kc * BK + kk < K then
                 A (sorted.getD (pm * BM + r) 0 / tk) (kc * BK + kk) else 0)
              * (if kc * BK + kk < K then
                 Bw (experts.getD pm (-1)).toNat ((pn * BN + j) % N)
                   (kc * BK + kk) else 0))))
      else [])),
     cdivN K BK)

/-- Claim C5: a tile whose `expert_ids` entry is the absent-shard sentinel
`-1` writes exactly 0 to every cell of its valid region (rows whose sorted
token id is below `num_valid_tokens`, columns below `N`) — every cell of
that region is written, every written value is 0 — and performs no
multiply-accumulate work (zero reduction iterations). -/
theorem claim_C5_sentinel_tile_zero_fill
    (A : ℕ → ℕ → ℚ) (Bw : ℕ → ℕ → ℕ → ℚ) (topkW : ℕ → ℚ)
    (sorted : List ℕ) (experts : List ℤ) (numPost numValid N K : ℕ)
    (mul : Bool) (tk BM BN BK : ℕ) (pm pn : ℕ)
    (hrun : pm * BM < numPost)
    (hsent : experts.getD pm (-1) = -1) :
    (∀ w ∈ (fused_moe_kernel_tile A Bw topkW sorted experts numPost numValid
        N K mul tk BM BN BK pm pn).1, w.2 = 0) ∧
    (∀ r < BM, sorted.getD (pm * BM + r) 0 < numValid →
      ∀ j < BN, pn * BN + j < N →
        ((sorted.getD (pm * BM + r) 0, pn * BN + j), (0 : ℚ))
          ∈ (fused_moe_kernel_tile A Bw topkW sorted experts numPost numValid
              N K mul tk BM BN BK pm pn).1) ∧
    (fused_moe_kernel_tile A Bw topkW sorted experts numPost numValid
        N K mul tk BM BN BK pm pn).2 = 0 := by
  unfold fused_moe_kernel_tile
  rw [if_neg (by omega), if_pos hsent]
  refine ⟨?_, ?_, rfl⟩
  · intro w hw
    obtain ⟨r, _, hw⟩ := List.mem_flatMap.mp hw
    by_cases hv : sorted.getD (pm * BM + r) 0 < numValid
    · rw [if_pos hv] at hw
      obtain ⟨j, _, rfl⟩ := List.mem_map.mp hw
      rfl
    · rw [if_neg hv] at hw
      simp at hw
  · intro r hr hv j hj hcol
    apply List.mem_flatMap.mpr
    refine ⟨r, List.mem_range.mpr hr, ?_⟩
    rw [if_pos hv]
    apply List.mem_map.mpr
    exact ⟨j, List.mem_filter.mpr ⟨List.mem_range.mpr hj, by simpa using hcol⟩,
      rfl⟩

/-- The grid row bound of `invoke_fused_moe_kernel` (lines 491-498): for a
small batch (`A.shape[0] < BLOCK_SIZE_M`) the launch bound `EM` shrinks from
`sorted_token_ids.shape[0]` to
`min(sorted_token_ids.shape[0], A.shape[0] * top_k * BLOCK_SIZE_M)`. -/
def invokeEM (Arows tk BM EM0 : ℕ) : ℕ :=
  if Arows < BM then min EM0 (Arows * tk * BM) else EM0

/-- `invoke_fused_moe_kernel`, full-precision path (lines 464-619): launch
one tile per grid point `(pid_m, pid_n)` with
`pid_m < cdiv(EM, BLOCK_SIZE_M)`, `pid_n < cdiv(N, BLOCK_SIZE_N)` and apply
all tile stores to the output.  (The grouped L2-locality pid mapping of
lines 331-339 is a bijection on the same tile set, and tiles write disjoint
cells, so enumerating tiles in row-major order yields the same memory.)
`num_valid_tokens` is `A.shape[0] * top_k` as at line 489. -/
def invoke_fused_moe_kernel
    (A : ℕ → ℕ → ℚ) (Bw : ℕ → ℕ → ℕ → ℚ) (C0 : ℕ → ℕ → ℚ) (topkW : ℕ → ℚ)
    (sorted : List ℕ) (experts : List ℤ) (numPost : ℕ)
    (mul : Bool) (tk Arows N K BM BN BK : ℕ) : ℕ → ℕ → ℚ :=
  applyWrites
    (((List.range (cdivN (invokeEM Arows tk BM sorted.length) BM)).flatMap
      (fun pm => (List.range (cdivN N BN)).map (fun pn => (pm, pn)))).flatMap
      (fun t => (fused_moe_kernel_tile A Bw topkW sorted experts numPost
        (Arows * tk) N K mul tk BM BN BK t.1 t.2).1))
    C0

/-- Claim C10: the shrunken launch bound still covers every valid token:
any position `i` of `sorted_token_ids` holding a valid flattened token id
(`< num_valid_tokens`) lies in a row-tile of index below
`cdiv(EM, BLOCK_SIZE_M)` with `EM = min(sorted_token_ids.shape[0],
A.shape[0] * top_k * BLOCK_SIZE_M)` in the small-batch case.  (The
assumption that each token's top-k ids are distinct is not even needed.) -/
theorem claim_C10_shrunken_grid_covers_valid_tokens
    (M tk E B : ℕ) (eOf : ℕ → ℕ) (emap : Option (ℕ → ℤ))
    (hB : 0 < B) (heOf : ∀ f < M * tk, eOf f < E) :
    ∀ i < ((moe_align_block_size (M * tk) E B eOf emap).1).length,
      ((moe_align_block_size (M * tk) E B eOf emap).1).getD i 0 < M * tk →
        i / B < cdivN (invokeEM M tk B
          ((moe_align_block_size (M * tk) E B eOf emap).1).length) B := by
  intro i hlen hval
  have hcore : (moe_align_block_size (M * tk) E B eOf emap).1
      = moe_align_sorted (M * tk) E B eOf
        ++ List.replicate (M * tk + E * (B - 1)
            - (moe_align_sorted (M * tk) E B eOf).length) (M * tk) := rfl
  by_cases hi : i < (moe_align_sorted (M * tk) E B eOf).length
  · have hpostle : (moe_align_sorted (M * tk) E B eOf).length ≤ M * tk * B :=
      moe_align_sorted_length_le (M * tk) E B hB eOf heOf
    have hlenfull : (moe_align_sorted (M * tk) E B eOf).length
        ≤ ((moe_align_block_size (M * tk) E B eOf emap).1).length := by
      rw [hcore, List.length_append]
      omega
    have hEM : (moe_align_sorted (M * tk) E B eOf).length
        ≤ invokeEM M tk B
          ((moe_align_block_size (M * tk) E B eOf emap).1).length := by
      unfold invokeEM
      split
      · exact le_min hlenfull hpostle
      · exact hlenfull
    exact div_lt_cdivN hB (lt_of_lt_of_le hi hEM)
  · exfalso
    push_neg at hi
    rw [hcore, List.getD_append_right _ _ _ _ hi] at hval
    rw [hcore, List.length_append] at hlen
    have hrep : i - (moe_align_sorted (M * tk) E B eOf).length
        < (List.replicate (M * tk + E * (B - 1)
            - (moe_align_sorted (M * tk) E B eOf).length) (M * tk)).length := by
      rw [List.length_replicate]
      rw [List.length_replicate] at hlen
      omega
    rw [List.getD_eq_getElem _ _ hrep] at hval
    simp at hval

theorem claim_C5_witness :
    (fused_moe_kernel_tile (fun _ _ => 1) (fun _ _ _ => 1) (fun _ => 1)
      [0, 1] [-1] 2 4 2 2 true 1 2 2 1 0 0).2 = 0 :=
  (claim_C5_sentinel_tile_zero_fill (fun _ _ => 1) (fun _ _ _ => 1)
    (fun _ => 1) [0, 1] [-1] 2 4 2 2 true 1 2 2 1 0 0
    (by decide) (by decide)).2.2

theorem claim_C10_witness :
    0 / 4 < cdivN (invokeEM 1 2 4
      ((moe_align_block_size (1 * 2) 2 4 (fun f => f % 2) none).1).length) 4 :=
  claim_C10_shrunken_grid_covers_valid_tokens 1 2 2 4 (fun f => f % 2) none
    (by decide) (by decide) 0 (by decide) (by decide)

lemma tile_read_lt {B L pm r : ℕ} (hB : 0 < B) (hdvd : B ∣ L)
    (hpm : pm * B < L) (hr : r < B) : pm * B + r < L := by
  obtain ⟨q, rfl⟩ := hdvd
  have hpmq : pm < q := by
    have := (Nat.mul_lt_mul_right hB).mp (by rw [Nat.mul_comm B q] at hpm; exact hpm)
    exact this
  have h1 : pm * B + r < (pm + 1) * B := by
    rw [Nat.succ_mul]
    omega
  have h2 : (pm + 1) * B ≤ q * B := Nat.mul_le_mul_right B hpmq
  rw [Nat.mul_comm B q]
  omega

lemma div_mod_unique_pos {B p pm r : ℕ} (hB : 0 < B) (hr : r < B)
    (hp : p = pm * B + r) : pm = p / B ∧ r = p % B := by
  subst hp
  constructor
  · rw [Nat.mul_comm, Nat.mul_add_div hB, Nat.div_eq_of_lt hr, Nat.add_zero]
  · rw [Nat.mul_comm, Nat.mul_add_mod, Nat.mod_eq_of_lt hr]

/-- Simplification of a valid row's accumulated tile value to the plain
weighted dot product. -/
lemma tile_value_simplify (Af : ℕ → ℚ) (Bwf : ℕ → ℕ → ℚ) (wq : ℚ)
    (n N K BK : ℕ) (mul : Bool) (hBK : 0 < BK) (hn : n < N) :
    (if mul then wq else 1)
      * (∑ kc ∈ Finset.range (cdivN K BK), ∑ kk ∈ Finset.range BK,
        ((if kc * BK + kk < K then Af (kc * BK + kk) else 0)
         * (if kc * BK + kk < K then Bwf (n % N) (kc * BK + kk) else 0)))
    = (if mul then wq else 1) * ∑ k ∈ Finset.range K, Af k * Bwf n k := by
  congr 1
  have hstep : ∀ kc kk : ℕ,
      ((if kc * BK + kk < K then Af (kc * BK + kk) else 0)
       * (if kc * BK + kk < K then Bwf (n % N) (kc * BK + kk) else 0))
      = (if kc * BK + kk < K then Af (kc * BK + kk) * Bwf n (kc * BK + kk)
         else 0) := by
    intro kc kk
    by_cases h : kc * BK + kk < K
    · rw [if_pos h, if_pos h, if_pos h, Nat.mod_eq_of_lt hn]
    · rw [if_neg h, if_neg h, if_neg h, mul_zero]
  calc (∑ kc ∈ Finset.range (cdivN K BK), ∑ kk ∈ Finset.range BK,
      ((if kc * BK + kk < K then Af (kc * BK + kk) else 0)
       * (if kc * BK + kk < K then Bwf (n % N) (kc * BK + kk) else 0)))
      = ∑ kc ∈ Finset.range (cdivN K BK), ∑ kk ∈ Finset.range BK,
        (if kc * BK + kk < K then Af (kc * BK + kk) * Bwf n (kc * BK + kk)
         else 0) := by
        exact Finset.sum_congr rfl (fun kc _ =>
          Finset.sum_congr rfl (fun kk _ => hstep kc kk))
    _ = ∑ k ∈ Finset.range K, Af k * Bwf n k :=
        sum_chunks_ite K BK hBK (fun k => Af k * Bwf n k)

lemma tile_written_value_eq (A : ℕ → ℕ → ℚ) (Bw : ℕ → ℕ → ℕ → ℚ)
    (topkW : ℕ → ℚ) (f n Mt N K BK tk e : ℕ) (mul : Bool)
    (hBK : 0 < BK) (hf : f < Mt) (hn : n < N) :
    (if mul then (if f < Mt then topkW f else 0) else 1)
      * (∑ kc ∈ Finset.range (cdivN K BK), ∑ kk ∈ Finset.range BK,
        ((if f < Mt ∧ kc * BK + kk < K then A (f / tk) (kc * BK + kk) else 0)
         * (if kc * BK + kk < K then
            Bw ((e : ℤ)).toNat (n % N) (kc * BK + kk) else 0)))
    = (if mul then topkW f else 1)
      * ∑ k ∈ Finset.range K, A (f / tk) k * Bw e n k := by
  have h1 : (if mul then (if f < Mt then topkW f else 0) else 1)
      = (if mul then topkW f else 1) := by
    cases mul
    · rfl
    · simp [hf]
  rw [h1]
  have h2 : ((e : ℤ)).toNat = e := Int.toNat_natCast e
  simp only [hf, true_and, h2]
  exact tile_value_simplify (fun k => A (f / tk) k) (fun nn k => Bw e nn k)
    (topkW f) n N K BK mul hBK hn

/-- The full-precision grouped-GEMM invocation on the aligned permutation
(no expert-parallel map): for every valid flattened slot `f` and output
column `n < N`, the output row `f` holds the (optionally routing-weighted)
dot product of activation row `f / top_k` with expert `eOf f`'s weight
row `n`. -/
lemma invoke_on_aligned
    (A : ℕ → ℕ → ℚ) (Bw : ℕ → ℕ → ℕ → ℚ) (C0 : ℕ → ℕ → ℚ) (topkW : ℕ → ℚ)
    (Arows tk E N K B BN BK : ℕ) (eOf : ℕ → ℕ) (mul : Bool)
    (hB : 0 < B) (hBN : 0 < BN) (hBK : 0 < BK)
    (heOf : ∀ f < Arows * tk, eOf f < E) :
    ∀ f < Arows * tk, ∀ n < N,
      invoke_fused_moe_kernel A Bw C0 topkW
        (moe_align_block_size (Arows * tk) E B eOf none).1
        (moe_align_block_size (Arows * tk) E B eOf none).2.1
        (moe_align_block_size (Arows * tk) E B eOf none).2.2
        mul tk Arows N K B BN BK f n
      = (if mul then topkW f else 1)
        * ∑ k ∈ Finset.range K, A (f / tk) k * Bw (eOf f) n k := by
  intro f hf n hn
  have hcount := moe_align_sorted_count (Arows * tk) E B eOf f hf (heOf f hf)
  obtain ⟨i, hi, hival⟩ := count_one_exists_getD _ f hcount
  have hinj := getD_inj_of_count_one _ f hcount
  have hdvd := moe_align_sorted_length_dvd (Arows * tk) E B hB eOf
  have hlenle := moe_align_sorted_length_le (Arows * tk) E B hB eOf heOf
  have hfull : (moe_align_block_size (Arows * tk) E B eOf none).1
      = moe_align_sorted (Arows * tk) E B eOf
        ++ List.replicate (Arows * tk + E * (B - 1)
            - (moe_align_sorted (Arows * tk) E B eOf).length)
          (Arows * tk) := rfl
  have hnp : (moe_align_block_size (Arows * tk) E B eOf none).2.2
      = (moe_align_sorted (Arows * tk) E B eOf).length := rfl
  have hread : ∀ p : ℕ, p < (moe_align_sorted (Arows * tk) E B eOf).length →
      ((moe_align_block_size (Arows * tk) E B eOf none).1).getD p 0
        = (moe_align_sorted (Arows * tk) E B eOf).getD p 0 := by
    intro p hp
    rw [hfull]
    exact List.getD_append _ _ _ _ hp
  have hexpat : ∀ p : ℕ,
      p < (moe_align_sorted (Arows * tk) E B eOf).length →
      (moe_align_sorted (Arows * tk) E B eOf).getD p 0 = f →
      ((moe_align_block_size (Arows * tk) E B eOf none).2.1).getD (p / B) (-1)
        = ((eOf f : ℤ)) := by
    intro p hp hv
    have h := moe_align_expert_at (Arows * tk) E B hB eOf none p hp
      (by rw [hv]; exact hf)
    rw [hv] at h
    exact h
  have hcorelenfull : (moe_align_sorted (Arows * tk) E B eOf).length
      ≤ ((moe_align_block_size (Arows * tk) E B eOf none).1).length := by
    rw [hfull, List.length_append]
    omega
  unfold invoke_fused_moe_kernel
  refine applyWrites_agree _ C0 f n _ ?_ ?_
  · -- membership of the expected write
    have hiEM : i < invokeEM Arows tk B
        ((moe_align_block_size (Arows * tk) E B eOf none).1).length := by
      unfold invokeEM
      split
      · exact lt_of_lt_of_le hi (le_min hcorelenfull hlenle)
      · exact lt_of_lt_of_le hi hcorelenfull
    apply List.mem_flatMap.mpr
    refine ⟨(i / B, n / BN), ?_, ?_⟩
    · apply List.mem_flatMap.mpr
      refine ⟨i / B, List.mem_range.mpr (div_lt_cdivN hB hiEM), ?_⟩
      apply List.mem_map.mpr
      exact ⟨n / BN, List.mem_range.mpr (div_lt_cdivN hBN hn), rfl⟩
    · have hidx : i / B * B + i % B = i := by
        rw [Nat.mul_comm]
        exact Nat.div_add_mod i B
      have hcol : n / BN * BN + n % BN = n := by
        rw [Nat.mul_comm]
        exact Nat.div_add_mod n BN
      unfold fused_moe_kernel_tile
      have hguard : ¬ ((moe_align_block_size (Arows * tk) E B eOf none).2.2
          ≤ i / B * B) := by
        rw [hnp]
        push_neg
        exact lt_of_le_of_lt (Nat.div_mul_le_self i B) hi
      rw [if_neg hguard]
      have hSi : ((moe_align_block_size (Arows * tk) E B eOf none).1).getD
          (i / B * B + i % B) 0 = f := by
        rw [hidx, hread i hi, hival]
      have hXi : ((moe_align_block_size (Arows * tk) E B eOf
          none).2.1).getD (i / B) (-1) = ((eOf f : ℤ)) :=
        hexpat i hi hival
      rw [if_neg (by rw [hXi]; omega)]
      apply List.mem_flatMap.mpr
      refine ⟨i % B, List.mem_range.mpr (Nat.mod_lt _ hB), ?_⟩
      rw [hSi, if_pos hf]
      apply List.mem_map.mpr
      refine ⟨n % BN, ?_, ?_⟩
      · apply List.mem_filter.mpr
        refine ⟨List.mem_range.mpr (Nat.mod_lt _ hBN), ?_⟩
        simp only [hcol]
        simpa using hn
      · rw [hcol, hXi]
        exact congrArg (fun v => ((f, n), v))
          (tile_written_value_eq A Bw topkW f n (Arows * tk) N K BK tk
            (eOf f) mul hBK hf hn)
  · -- agreement: every write to cell (f, n) carries the expected value
    intro w hw hkey
    obtain ⟨t, _, hwt⟩ := List.mem_flatMap.mp hw
    unfold fused_moe_kernel_tile at hwt
    by_cases hguard : (moe_align_block_size (Arows * tk) E B eOf none).2.2
        ≤ t.1 * B
    · rw [if_pos hguard] at hwt
      simp at hwt
    · rw [if_neg hguard] at hwt
      push_neg at hguard
      rw [hnp] at hguard
      by_cases hsent : ((moe_align_block_size (Arows * tk) E B eOf
          none).2.1).getD t.1 (-1) = -1
      · -- sentinel tile cannot write to the cell of a valid slot
        rw [if_pos hsent] at hwt
        obtain ⟨r, hr, hwr⟩ := List.mem_flatMap.mp hwt
        by_cases hvalid : ((moe_align_block_size (Arows * tk) E B eOf
            none).1).getD (t.1 * B + r) 0 < Arows * tk
        · rw [if_pos hvalid] at hwr
          obtain ⟨j, hjf, hwj⟩ := List.mem_map.mp hwr
          subst hwj
          have hk1 : ((moe_align_block_size (Arows * tk) E B eOf
              none).1).getD (t.1 * B + r) 0 = f := congrArg Prod.fst hkey
          have hplt : t.1 * B + r
              < (moe_align_sorted (Arows * tk) E B eOf).length :=
            tile_read_lt hB hdvd hguard (List.mem_range.mp hr)
          have hpi : t.1 * B + r = i := by
            apply hinj _ i hplt hi _ hival
            rw [← hread _ hplt]
            exact hk1
          have hpm : t.1 = (t.1 * B + r) / B :=
            (div_mod_unique_pos hB (List.mem_range.mp hr) rfl).1
          have hX : ((moe_align_block_size (Arows * tk) E B eOf
              none).2.1).getD t.1 (-1) = ((eOf f : ℤ)) := by
            rw [hpm]
            exact hexpat _ hplt (by rw [← hread _ hplt]; exact hk1)
          rw [hX] at hsent
          omega
        · rw [if_neg hvalid] at hwr
          simp at hwr
      · rw [if_neg hsent] at hwt
        obtain ⟨r, hr, hwr⟩ := List.mem_flatMap.mp hwt
        by_cases hvalid : ((moe_align_block_size (Arows * tk) E B eOf
            none).1).getD (t.1 * B + r) 0 < Arows * tk
        · rw [if_pos hvalid] at hwr
          obtain ⟨j, hjf, hwj⟩ := List.mem_map.mp hwr
          subst hwj
          have hk1 : ((moe_align_block_size (Arows * tk) E B eOf
              none).1).getD (t.1 * B + r) 0 = f := congrArg Prod.fst hkey
          have hk2 : t.2 * BN + j = n := congrArg Prod.snd hkey
          have hplt : t.1 * B + r
              < (moe_align_sorted (Arows * tk) E B eOf).length :=
            tile_read_lt hB hdvd hguard (List.mem_range.mp hr)
          have hpm : t.1 = (t.1 * B + r) / B :=
            (div_mod_unique_pos hB (List.mem_range.mp hr) rfl).1
          have hX : ((moe_align_block_size (Arows * tk) E B eOf
              none).2.1).getD t.1 (-1) = ((eOf f : ℤ)) := by
            rw [hpm]
            exact hexpat _ hplt (by rw [← hread _ hplt]; exact hk1)
          show (_ : ((ℕ × ℕ) × ℚ)).2 = _
          simp only
          rw [hk1, hk2, hX]
          exact tile_written_value_eq A Bw topkW f n (Arows * tk) N K BK tk
            (eOf f) mul hBK hf hn
        · rw [if_neg hvalid] at hwr
          simp at hwr

/-- Modelled from the spec: `ops.silu_and_mul` — the gated SiLU activation
primitive, consuming `(rows, 2*d)` and producing `(rows, d)` by
`out[r, j] = silu(in[r, j]) * in[r, j + d]`. -/
def silu_and_mul (d : ℕ) (inp : ℕ → ℕ → ℚ) : ℕ → ℕ → ℚ :=
  fun r j => siluQ (inp r j) * inp r (j + d)

/-- Modelled from the spec: `ops.moe_sum` — the reduction primitive summing
the `top_k` slot contributions of each token into one output row. -/
def moe_sum (tk : ℕ) (inp : ℕ → ℕ → ℚ) : ℕ → ℕ → ℚ :=
  fun tok k => ∑ slot ∈ Finset.range tk, inp (tok * tk + slot) k

/-- `fused_experts_impl` (fused_moe.py lines 1213-1414), value view, on the
full-precision path (all quantization flags false, `expert_map = None`) for
a single chunk (`num_tokens ≤ VLLM_FUSED_MOE_CHUNK_SIZE = 32768`, in which
case the chunk loop body runs exactly once over the whole batch): align the
flattened routing slots, GEMM1 into `intermediate_cache1` (routing weight
iff `apply_router_weight_on_input`), gated SiLU into `intermediate_cache2`,
GEMM2 with `top_k = 1` into `intermediate_cache3` (routing weight iff not
`apply_router_weight_on_input`), and the per-token `moe_sum` reduction.
`g1`/`g3` are the arbitrary initial contents of the scratch buffers
(`torch.empty`); shapes: `hidden_states : (M, K)`, `w1 : (E, N, K)`,
`w2 : (E, K, N2)` with `N = 2 * N2`. -/
def fused_experts_impl_fp (M t E N N2 K B BN BK : ℕ)
    (hidden_states : ℕ → ℕ → ℚ) (w1 w2 : ℕ → ℕ → ℕ → ℚ)
    (topk_weights : ℕ → ℕ → ℚ) (topk_ids : ℕ → ℕ → ℕ)
    (apply_router_weight_on_input : Bool)
    (g1 g3 : ℕ → ℕ → ℚ) : ℕ → ℕ → ℚ :=
  let eOf : ℕ → ℕ := fun fid => topk_ids (fid / t) (fid % t)
  let wflat : ℕ → ℚ := fun fid => topk_weights (fid / t) (fid % t)
  let al := moe_align_block_size (M * t) E B eOf none
  let cache1 := invoke_fused_moe_kernel hidden_states w1 g1 wflat
    al.1 al.2.1 al.2.2 apply_router_weight_on_input t M N K B BN BK
  let cache2 := silu_and_mul N2 cache1
  let cache3 := invoke_fused_moe_kernel cache2 w2 g3 wflat
    al.1 al.2.1 al.2.2 (!apply_router_weight_on_input) 1 (M * t) K N2 B BN BK
  moe_sum t cache3

/-- The naive per-token dense computation of the spec ("for each token,
compute `sum_i weight_i * silu(x @ W1[e_i]) @ W2[e_i]` over its selected
experts", with the gated-SiLU activation of §6 halving the feature width).
Written from the spec's words: the refinement target. -/
def dense_moe_reference (t N2 K : ℕ) (hidden_states : ℕ → ℕ → ℚ)
    (w1 w2 : ℕ → ℕ → ℕ → ℚ) (topk_weights : ℕ → ℕ → ℚ)
    (topk_ids : ℕ → ℕ → ℕ) : ℕ → ℕ → ℚ :=
  fun tok k => ∑ slot ∈ Finset.range t,
    topk_weights tok slot *
      ∑ j ∈ Finset.range N2,
        (siluQ (∑ kh ∈ Finset.range K,
            hidden_states tok kh * w1 (topk_ids tok slot) j kh)
          * ∑ kh ∈ Finset.range K,
            hidden_states tok kh * w1 (topk_ids tok slot) (j + N2) kh)
        * w2 (topk_ids tok slot) k j

lemma flat_div (tok t slot : ℕ) (ht : 0 < t) (hslot : slot < t) :
    (tok * t + slot) / t = tok := by
  rw [Nat.mul_comm, Nat.mul_add_div ht, Nat.div_eq_of_lt hslot, Nat.add_zero]

lemma flat_mod (tok t slot : ℕ) (hslot : slot < t) :
    (tok * t + slot) % t = slot := by
  rw [Nat.mul_comm, Nat.mul_add_mod, Nat.mod_eq_of_lt hslot]

/-- Claim C1: on the full-precision path (all quantization flags false,
default `apply_router_weight_on_input = False`) the fused pipeline computes,
for every token, exactly the naive dense reference — in exact rational
arithmetic the two sides are equal, so in particular within any float32
tolerance — and the output has the activation shape `(M, K)` (row index the
token, column index `k < K`). -/
theorem claim_C1_fused_experts_matches_dense_reference
    (M t E N N2 K B BN BK : ℕ) (hidden_states : ℕ → ℕ → ℚ)
    (w1 w2 : ℕ → ℕ → ℕ → ℚ) (topk_weights : ℕ → ℕ → ℚ)
    (topk_ids : ℕ → ℕ → ℕ) (g1 g3 : ℕ → ℕ → ℚ)
    (hB : 0 < B) (hBN : 0 < BN) (hBK : 0 < BK) (ht : 0 < t)
    (hN : N = 2 * N2) (hM : M ≤ 32768)
    (hids : ∀ tok < M, ∀ slot < t, topk_ids tok slot < E) :
    ∀ tok < M, ∀ k < K,
      fused_experts_impl_fp M t E N N2 K B BN BK hidden_states w1 w2
        topk_weights topk_ids false g1 g3 tok k
      = dense_moe_reference t N2 K hidden_states w1 w2 topk_weights
          topk_ids tok k := by
  intro tok htok k hk
  have heOfb : ∀ fid < M * t,
      (fun fid => topk_ids (fid / t) (fid % t)) fid < E := by
    intro fid hfid
    have hdiv : fid / t < M := by
      rw [Nat.div_lt_iff_lt_mul ht]
      exact hfid
    exact hids _ hdiv _ (Nat.mod_lt _ ht)
  have h1 := invoke_on_aligned hidden_states w1 g1
    (fun fid => topk_weights (fid / t) (fid % t)) M t E N K B BN BK
    (fun fid => topk_ids (fid / t) (fid % t)) false hB hBN hBK heOfb
  have h2 := invoke_on_aligned
    (silu_and_mul N2 (invoke_fused_moe_kernel hidden_states w1 g1
      (fun fid => topk_weights (fid / t) (fid % t))
      (moe_align_block_size (M * t) E B
        (fun fid => topk_ids (fid / t) (fid % t)) none).1
      (moe_align_block_size (M * t) E B
        (fun fid => topk_ids (fid / t) (fid % t)) none).2.1
      (moe_align_block_size (M * t) E B
        (fun fid => topk_ids (fid / t) (fid % t)) none).2.2
      false t M N K B BN BK))
    w2 g3 (fun fid => topk_weights (fid / t) (fid % t)) (M * t) 1 E K N2
    B BN BK (fun fid => topk_ids (fid / t) (fid % t)) true hB hBN hBK
    (by rw [Nat.mul_one]; exact heOfb)
  rw [Nat.mul_one] at h2
  show moe_sum t _ tok k = _
  unfold moe_sum dense_moe_reference
  apply Finset.sum_congr rfl
  intro slot hslot
  have hslt : slot < t := Finset.mem_range.mp hslot
  have hfMt : tok * t + slot < M * t := by
    have h3 : tok * t + slot < (tok + 1) * t := by
      rw [Nat.succ_mul]
      omega
    have h4 : (tok + 1) * t ≤ M * t := Nat.mul_le_mul_right t htok
    omega
  have hdivf := flat_div tok t slot ht hslt
  have hmodf := flat_mod tok t slot hslt
  have hc3 := h2 (tok * t + slot) hfMt k hk
  rw [Nat.div_one] at hc3
  simp only [Bool.not_false]
  rw [hc3]
  simp only [if_pos rfl, Bool.not_false, if_true, hdivf, hmodf]
  congr 1
  apply Finset.sum_congr rfl
  intro j hj
  have hjN2 : j < N2 := Finset.mem_range.mp hj
  have hjN : j < N := by omega
  have hjN2N : j + N2 < N := by omega
  unfold silu_and_mul
  have hc1a := h1 (tok * t + slot) hfMt j hjN
  have hc1b := h1 (tok * t + slot) hfMt (j + N2) hjN2N
  rw [hc1a, hc1b]
  simp only [Bool.false_eq_true, if_false, one_mul, hdivf, hmodf]

theorem claim_C1_witness :
    fused_experts_impl_fp 1 1 1 2 1 1 1 1 1 (fun _ _ => 1)
      (fun _ _ _ => 1) (fun _ _ _ => 1) (fun _ _ => 1) (fun _ _ => 0)
      false (fun _ _ => 0) (fun _ _ => 0) 0 0
    = dense_moe_reference 1 1 1 (fun _ _ => 1) (fun _ _ _ => 1)
        (fun _ _ => 1) (fun _ _ => 1) (fun _ _ => 0) 0 0 :=
  claim_C1_fused_experts_matches_dense_reference 1 1 1 2 1 1 1 1 1
    (fun _ _ => 1) (fun _ _ _ => 1) (fun _ _ _ => 1) (fun _ _ => 1)
    (fun _ _ => 0) (fun _ _ => 0) (fun _ _ => 0)
    (by decide) (by decide) (by decide) (by decide) (by decide) (by decide)
    (by decide) 0 (by decide) 0 (by decide)
